import Mathlib

/-!
Shallow embedding of the pixi-ease-container tweening engine.

Sources:
* src/ease.ts — the `Ease` group scheduler (frame arming, snapshot tick,
  `face`/`target` convenience constructors);
* src/unnamed/part_000 — the `Easing` session state machine
  (`addParam` binding strategies, `shortestAngle`, per-frame updaters,
  `reverse`/`repeat`/`complete` boundary handling, `update`).

Modelling conventions:
* JavaScript numbers are exact rationals `ℚ`; `Math.PI` is the exact
  rational value of the IEEE-754 double constant.
* `Math.random()` is an oracle stream `ℕ → ℚ` threaded through the world;
  `Math.atan2` (used only to compute a bearing handed to `shortestAngle`)
  is abstracted as a `bearing` argument.
* PIXI containers are records of string-named fields (numbers or 2-point
  sub-objects) plus the `_destroyed` liveness flag, held in a heap `ℕ →
  Container`; property reads/writes by name mirror the dynamic accesses
  of the source.  A read of a number where an object sits (or vice versa)
  is `undefined`/`NaN` in JS; the projections below return junk `0` there
  and every theorem's hypotheses keep evaluation away from that corner.
* Event emissions are collected as a list of event-name strings.
-/

namespace PixiEase

/-- The 64-bit float value of `Math.PI`, as an exact rational
(`884279719003555 * 2⁻⁴⁸`). -/
def mathPI : ℚ := 884279719003555 / 281474976710656

/-- Truncation toward zero, the `ToInteger` step of the JS `%` operator. -/
def jsTrunc (q : ℚ) : ℤ := if 0 ≤ q then ⌊q⌋ else ⌈q⌉

/-- The JS `%` remainder on numbers: `a - n * trunc(a / n)` (sign follows `a`). -/
def jsRem (a n : ℚ) : ℚ := a - n * (jsTrunc (a / n) : ℚ)

/-- The local helper `mod(a, n) = ((a % n) + n) % n` declared inside
`Easing.shortestAngle` (src/unnamed/part_000 lines 125-127). -/
def modJs (a n : ℚ) : ℚ := jsRem (jsRem a n + n) n

/-- `Easing.shortestAngle(start, finish)` (src/unnamed/part_000 lines 124-137). -/
def Easing.shortestAngle (start finish : ℚ) : ℚ :=
  let PI_2 := mathPI * 2
  let diff0 := jsRem |start - finish| PI_2
  let diff := if mathPI < diff0 then PI_2 - diff0 else diff0
  let simple := finish - start
  let sign : ℚ := if mathPI < modJs (simple + mathPI) PI_2 then 1 else -1
  diff * sign

/-- The rotation value `Ease.face` passes to `add` (src/ease.ts lines
131-134); the `Math.atan2(target.y - element.y, target.x - element.x)`
bearing is abstracted as the `bearing` argument. -/
def Ease.faceTo (rotation bearing : ℚ) : ℚ := Easing.shortestAngle rotation bearing

/-- The duration `Ease.face` computes:
`Math.abs(shortestAngle - element.rotation) / speed` (src/ease.ts line 135). -/
def Ease.faceDuration (rotation bearing speed : ℚ) : ℚ :=
  |Ease.faceTo rotation bearing - rotation| / speed

/-- The value the specification's sentence prescribes for `face`:
`|angularDelta| / speed` where `angularDelta` is the shortest signed
angular delta from the current rotation to the bearing. -/
def specFaceDuration (rotation bearing speed : ℚ) : ℚ :=
  |Easing.shortestAngle rotation bearing| / speed

/-- A 2-component point sub-object (`scale`, `skew`, or a `{x, y}` literal). -/
structure Pt where
  x : ℚ
  y : ℚ
deriving DecidableEq

/-- A dynamic JS value stored in a container field or an ease record:
either a number or a 2-point object. -/
inductive Val where
  | num (q : ℚ)
  | pt (p : Pt)
deriving DecidableEq

/-- Numeric view of a `Val`; a point in number position is `NaN` in JS,
modelled as junk `0` and kept unreachable by the theorems' hypotheses. -/
def Val.toNum : Val → ℚ
  | .num q => q
  | .pt _ => 0

/-- Point view of a `Val`; a number in point position reads `undefined`
coordinates in JS, modelled as junk `⟨0, 0⟩`. -/
def Val.toPt : Val → Pt
  | .pt p => p
  | .num _ => ⟨0, 0⟩

/-- A PIXI container as the engine sees it: the `_destroyed` liveness flag
plus string-named fields. -/
structure Container where
  destroyed : Bool
  fields : String → Val

/-- Field write `element[name] = v`. -/
def Container.setV (c : Container) (name : String) (v : Val) : Container :=
  { c with fields := fun s => if s = name then v else c.fields s }

/-- Coordinate write `element[name][coord] = v` (coord `x` when `isX`).
Writing a coordinate on a primitive is a silent no-op in (sloppy-mode) JS. -/
def Container.setCoord (c : Container) (name : String) (isX : Bool) (v : ℚ) : Container :=
  match c.fields name with
  | .pt p => c.setV name (.pt (if isX then { p with x := v } else { p with y := v }))
  | .num _ => c

/-- The world: the heap of containers plus the `Math.random()` oracle
stream and its cursor. -/
structure World where
  elems : ℕ → Container
  rng : ℕ → ℚ
  rngIdx : ℕ

/-- Replace the container at heap slot `i`. -/
def World.setElem (w : World) (i : ℕ) (c : Container) : World :=
  { w with elems := fun j => if j = i then c else w.elems j }

/-- Draw one `Math.random()` value and advance the cursor. -/
def World.draw (w : World) : ℚ × World :=
  (w.rng w.rngIdx, { w with rngIdx := w.rngIdx + 1 })

/-- The `repeat` option: JS `boolean | number` (`undefined` behaves as
`false`; both are falsy and never decremented, so `bool false` covers it). -/
inductive RepeatOpt where
  | bool (b : Bool)
  | num (n : ℤ)
deriving DecidableEq

/-- JS truthiness of the `repeat` option. -/
def RepeatOpt.truthy : RepeatOpt → Bool
  | .bool b => b
  | .num n => n != 0

/-- `this.options.repeat--` (only ever executed on the number form). -/
def RepeatOpt.dec : RepeatOpt → RepeatOpt
  | .num n => .num (n - 1)
  | r => r

/-- The per-session `AddOptions` record (src/unnamed/part_000 lines 12-18).
`repeat` is spelled `repeatOpt` because `repeat` is reserved in Lean;
`wait : 0` stands for the absent/falsy option. -/
structure AddOptions where
  ease : ℚ → ℚ → ℚ → ℚ → ℚ
  duration : ℚ
  reverse : Bool
  repeatOpt : RepeatOpt
  wait : ℚ

/-- One property binding (the `Ease` interface of src/unnamed/part_000
lines 20-27).  The per-tick update closure selected by `addParam` is
recovered by dispatching on the immutable `entry` string (`applyEase`
below); the `colors` array captured by the tint/blend closures is stored
here ( `[]` for every other kind).  `delta` of a `shake` binding is
`undefined` in JS and never read; it is carried as an arbitrary `Val`. -/
structure EaseEntry where
  element : ℕ
  entry : String
  start : Val
  toV : Val
  delta : Val
  colors : List ℚ
deriving DecidableEq

/-- The tween session state (class `Easing`, src/unnamed/part_000):
its binding list, its options record (mutated in place by the state
machine: `wait`, `reverse`, `repeat`), and the phase clock `time`. -/
structure Easing where
  eases : List EaseEntry
  options : AddOptions
  time : ℚ

/-- The `tint`/`blend` case of `addParam` (src/unnamed/part_000 lines
74-85): a non-array value `v` becomes the two-color sequence
`[element.tint, v]`, an array is taken as is; then `start = 0`,
`to = colors.length`, `delta = to`. -/
def Easing.addParamColor (el : ℕ) (entry : String) (elementTint : ℚ)
    (param : ℚ ⊕ List ℚ) : EaseEntry :=
  let colors := match param with
    | .inr l => l
    | .inl v => [elementTint, v]
  { element := el, entry := entry, start := .num 0, toV := .num colors.length,
    delta := .num colors.length, colors := colors }

/-- `updateOne` (src/unnamed/part_000 lines 157-159). -/
def Easing.updateOne (o : AddOptions) (t : ℚ) (e : EaseEntry) (entry : String)
    (w : World) : World :=
  w.setElem e.element ((w.elems e.element).setV entry
    (.num (o.ease t e.start.toNum e.delta.toNum o.duration)))

/-- `updatePoint` (src/unnamed/part_000 lines 161-168): both coordinates
of the `entry` sub-object receive the same curved value. -/
def Easing.updatePoint (o : AddOptions) (t : ℚ) (e : EaseEntry) (entry : String)
    (w : World) : World :=
  let v := o.ease t e.start.toNum e.delta.toNum o.duration
  w.setElem e.element (((w.elems e.element).setCoord entry false v).setCoord entry true v)

/-- `updatePosition` (src/unnamed/part_000 lines 170-173): each axis is
curved independently from its own start/delta. -/
def Easing.updatePosition (o : AddOptions) (t : ℚ) (e : EaseEntry) (w : World) : World :=
  let c := w.elems e.element
  let c := c.setV "x" (.num (o.ease t e.start.toPt.x e.delta.toPt.x o.duration))
  let c := c.setV "y" (.num (o.ease t e.start.toPt.y e.delta.toPt.y o.duration))
  w.setElem e.element c

/-- `updateCoord` (src/unnamed/part_000 lines 175-177). -/
def Easing.updateCoord (o : AddOptions) (t : ℚ) (e : EaseEntry) (name : String)
    (isX : Bool) (w : World) : World :=
  w.setElem e.element ((w.elems e.element).setCoord name isX
    (o.ease t e.start.toNum e.delta.toNum o.duration))

/-- The index selection of `updateTint` (src/unnamed/part_000 lines
180-183): floor of the curve output, replaced by `len - 1` exactly when
it equals `len`. -/
def Easing.tintIndex (calcV : ℚ) (len : ℕ) : ℤ :=
  let index := ⌊calcV⌋
  if index = (len : ℤ) then (len : ℤ) - 1 else index

/-- `updateTint` (src/unnamed/part_000 lines 179-185).  `colors[index]`
out of range is `undefined` in JS; modelled with default `0`, and the
bounds theorems below are stated on `tintIndex` itself. -/
def Easing.updateTint (o : AddOptions) (t : ℚ) (e : EaseEntry) (colors : List ℚ)
    (w : World) : World :=
  let calcV := o.ease t e.start.toNum e.delta.toNum o.duration
  let index := Easing.tintIndex calcV colors.length
  w.setElem e.element ((w.elems e.element).setV "tint" (.num (colors.getD index.toNat 0)))

/-- Wrap an integer into the signed 32-bit range (the JS `ToInt32` step
shared by `>>`, `<<`, `&` and `|`). -/
def wrap32 (n : ℤ) : ℤ :=
  let m := n % 2 ^ 32
  if m < 2 ^ 31 then m else m - 2 ^ 32

/-- JS `ToInt32` of a number: truncate toward zero, wrap to 32 bits. -/
def jsToInt32 (q : ℚ) : ℤ := wrap32 (jsTrunc q)

/-- JS `q << k` on a number. -/
def jsShl (q : ℚ) (k : ℕ) : ℤ := wrap32 (jsToInt32 q * 2 ^ k)

/-- JS `a >> k` on an int32 (arithmetic shift = floor division). -/
def jsShr (a : ℤ) (k : ℕ) : ℤ := Int.fdiv a (2 ^ k)

/-- JS bitwise or on two int32 values, via the two's-complement images. -/
def jsOr (a b : ℤ) : ℤ :=
  let x := (a % 2 ^ 32).toNat
  let y := (b % 2 ^ 32).toNat
  let r := Nat.lor x y
  if (r : ℤ) < 2 ^ 31 then (r : ℤ) else (r : ℤ) - 2 ^ 32

/-- `updateBlend` (src/unnamed/part_000 lines 187-211): channel-wise
linear blend of the two colors adjacent to the curve output, with the
`next` index wrapping by the current `reverse`/`repeat` options. -/
def Easing.updateBlend (o : AddOptions) (t : ℚ) (e : EaseEntry) (colors : List ℚ)
    (w : World) : World :=
  let calcV := o.ease t e.start.toNum e.delta.toNum o.duration
  let index0 := ⌊calcV⌋
  let index := if index0 = (colors.length : ℤ) then (colors.length : ℤ) - 1 else index0
  let next0 := index + 1
  let next := if next0 = (colors.length : ℤ) then
      (if o.reverse then index - 1 else if o.repeatOpt.truthy then 0 else index)
    else next0
  let percent : ℚ := calcV - index
  let color1 := colors.getD index.toNat 0
  let color2 := colors.getD next.toNat 0
  let r1 := jsShr (jsToInt32 color1) 16
  let g1 := jsOr (jsShr (jsToInt32 color1) 8) 0 % 256
  let b1 := jsToInt32 color1 % 256
  let r2 := jsShr (jsToInt32 color2) 16
  let g2 := jsOr (jsShr (jsToInt32 color2) 8) 0 % 256
  let b2 := jsToInt32 color2 % 256
  let percent1 := 1 - percent
  let r := percent1 * (r1 : ℚ) + percent * (r2 : ℚ)
  let g := percent1 * (g1 : ℚ) + percent * (g2 : ℚ)
  let b := percent1 * (b1 : ℚ) + percent * (b2 : ℚ)
  w.setElem e.element ((w.elems e.element).setV "tint"
    (.num ((jsOr (jsOr (jsShl r 16) (jsShl g 8)) (jsToInt32 b) : ℤ) : ℚ)))

/-- The local `random(n) = Math.floor(Math.random() * n) - Math.floor(n / 2)`
of `updateShake`, with the drawn `Math.random()` value passed in. -/
def Easing.shakeRandom (r n : ℚ) : ℚ := ((⌊r * n⌋ : ℤ) : ℚ) - ((⌊n / 2⌋ : ℤ) : ℚ)

/-- `updateShake` (src/unnamed/part_000 lines 213-219): fresh jitter from
two oracle draws, applied around the recorded start position. -/
def Easing.updateShake (e : EaseEntry) (w : World) : World :=
  let (r1, w) := w.draw
  let (r2, w) := w.draw
  let c := w.elems e.element
  let c := c.setV "x" (.num (e.start.toPt.x + Easing.shakeRandom r1 e.toV.toNum))
  let c := c.setV "y" (.num (e.start.toPt.y + Easing.shakeRandom r2 e.toV.toNum))
  w.setElem e.element c

/-- The per-tick update dispatch: `addParam` (src/unnamed/part_000 lines
49-122) selects the update closure from the immutable `entry` string, so
the stored closure is recovered by matching on it (`scaleX`/`skewX` etc.
strip the final letter into the sub-object name, `face` drives
`rotation`, anything unknown falls back to the generic one-field
strategy). -/
def Easing.applyEase (o : AddOptions) (t : ℚ) (e : EaseEntry) (w : World) : World :=
  match e.entry with
  | "scaleX" => Easing.updateCoord o t e "scale" true w
  | "skewX" => Easing.updateCoord o t e "skew" true w
  | "scaleY" => Easing.updateCoord o t e "scale" false w
  | "skewY" => Easing.updateCoord o t e "skew" false w
  | "tint" => Easing.updateTint o t e e.colors w
  | "blend" => Easing.updateBlend o t e e.colors w
  | "shake" => Easing.updateShake e w
  | "position" => Easing.updatePosition o t e w
  | "skew" => Easing.updatePoint o t e "skew" w
  | "scale" => Easing.updatePoint o t e "scale" w
  | "face" => Easing.updateOne o t e "rotation" w
  | other => Easing.updateOne o t e other w

/-- `complete(ease)` (src/unnamed/part_000 lines 221-226): only the
`shake` strategy resets the element position at terminal completion. -/
def Easing.complete (e : EaseEntry) (w : World) : World :=
  if e.entry = "shake" then
    let c := w.elems e.element
    let c := c.setV "x" (.num e.start.toPt.x)
    let c := c.setV "y" (.num e.start.toPt.y)
    w.setElem e.element c
  else w

/-- `reverse(ease)` (src/unnamed/part_000 lines 228-244): swap
`start`/`to` and negate `delta`, component-wise for `position`. -/
def Easing.reverseEase (e : EaseEntry) : EaseEntry :=
  if e.entry = "position" then
    { e with start := .pt e.toV.toPt, toV := .pt e.start.toPt,
             delta := .pt ⟨-e.delta.toPt.x, -e.delta.toPt.y⟩ }
  else
    { e with start := e.toV, toV := e.start, delta := .num (-e.delta.toNum) }

/-- `repeat(ease)` (src/unnamed/part_000 lines 246-282): the
repeat-boundary reset.  Note there is no `shake` case: a `shake` binding
falls into the default branch, which writes the recorded start value
into a property literally named `shake` and leaves `x`/`y` alone. -/
def Easing.repeatEase (e : EaseEntry) (w : World) : World :=
  let c := w.elems e.element
  let c1 := match e.entry with
    | "skewX" => c.setCoord "skew" true e.start.toNum
    | "skewY" => c.setCoord "skew" false e.start.toNum
    | "skew" => (c.setCoord "skew" true e.start.toNum).setCoord "skew" false e.start.toNum
    | "scaleX" => c.setCoord "scale" true e.start.toNum
    | "scaleY" => c.setCoord "scale" false e.start.toNum
    | "scale" => (c.setCoord "scale" true e.start.toNum).setCoord "scale" false e.start.toNum
    | "position" => (c.setV "x" (.num e.start.toPt.x)).setV "y" (.num e.start.toPt.y)
    | _ => c.setV e.entry e.start
  w.setElem e.element c1

/-- The splice-on-destroyed update loop of `Easing.update`
(src/unnamed/part_000 lines 305-313): destroyed bindings are dropped,
the rest are updated in order against the accumulating world. -/
def Easing.updateEases (o : AddOptions) (t : ℚ) :
    List EaseEntry → World → List EaseEntry × World
  | [], w => ([], w)
  | e :: rest, w =>
    if (w.elems e.element).destroyed then Easing.updateEases o t rest w
    else
      let w1 := Easing.applyEase o t e w
      let r := Easing.updateEases o t rest w1
      (e :: r.1, r.2)

/-- `this.eases.forEach((ease) => f(ease))` world-effect folds. -/
def Easing.runAll (f : EaseEntry → World → World) (es : List EaseEntry) (w : World) : World :=
  es.foldl (fun w e => f e w) w

/-- The body of `Easing.update` after the wait countdown
(src/unnamed/part_000 lines 299-344): advance and clamp the clock, drive
every live binding, then handle the phase boundary. -/
def Easing.updateCore (s : Easing) (w : World) (elapsed : ℚ) (evs : List String) :
    Easing × World × Bool × List String :=
  let o := s.options
  let t1 := s.time + elapsed
  let leftover := if o.duration ≤ t1 then t1 - o.duration else 0
  let t2 := if o.duration ≤ t1 then o.duration else t1
  let r := Easing.updateEases o t2 s.eases w
  let es := r.1
  let w1 := r.2
  let evs := evs ++ ["each"]
  if o.duration ≤ t2 then
    if o.reverse then
      let es2 := es.map Easing.reverseEase
      let w2 := if leftover ≠ 0 then Easing.runAll (Easing.applyEase o leftover) es2 w1 else w1
      let o2 := if o.repeatOpt.truthy then
          (if o.repeatOpt ≠ RepeatOpt.bool true then { o with repeatOpt := o.repeatOpt.dec } else o)
        else { o with reverse := false }
      (⟨es2, o2, leftover⟩, w2, false, evs ++ ["reverse"])
    else if o.repeatOpt.truthy then
      let w2 := Easing.runAll Easing.repeatEase es w1
      let w3 := if leftover ≠ 0 then Easing.runAll (Easing.applyEase o leftover) es w2 else w2
      let o2 := if o.repeatOpt ≠ RepeatOpt.bool true then { o with repeatOpt := o.repeatOpt.dec } else o
      (⟨es, o2, leftover⟩, w3, false, evs ++ ["repeat"])
    else
      (⟨es, o, t2⟩, Easing.runAll Easing.complete es w1, true, evs ++ ["complete"])
  else
    (⟨es, o, t2⟩, w1, false, evs)

/-- `Easing.update(elapsed)` (src/unnamed/part_000 lines 284-345),
returning the new session, the new world, the `finished` flag and the
emitted event names. -/
def Easing.update (s : Easing) (w : World) (elapsed : ℚ) :
    Easing × World × Bool × List String :=
  if s.eases.length = 0 then (s, w, true, [])
  else if s.options.wait ≠ 0 then
    let wait2 := s.options.wait - elapsed
    if 0 < wait2 then
      ({ s with options := { s.options with wait := wait2 } }, w, false, ["wait"])
    else
      Easing.updateCore { s with options := { s.options with wait := 0 } } w (-wait2) ["wait-end"]
  else
    Easing.updateCore s w elapsed []

/-- Drive a session with a list of frame increments, stopping at the
first `finished = true` (the group drops a finished session), and count
the `repeat` events fired along the way. -/
def Easing.run (s : Easing) (w : World) : List ℚ → Easing × World × Bool × ℕ
  | [] => (s, w, false, 0)
  | e :: rest =>
    let r := Easing.update s w e
    let nr := r.2.2.2.count "repeat"
    if r.2.2.1 then (r.1, r.2.1, true, nr)
    else
      let r2 := Easing.run r.1 r.2.1 rest
      (r2.1, r2.2.1, r2.2.2.1, nr + r2.2.2.2)

/-- Every binding's element is alive (`_destroyed` unset). -/
def Easing.Alive (w : World) (es : List EaseEntry) : Prop :=
  ∀ e ∈ es, (w.elems e.element).destroyed = false

/-- The value-interpolating binding kinds: every `addParam` strategy
except the color-sequence kinds (`tint`, `blend`) and the random
`shake` kind. -/
def valueKind (entry : String) : Prop :=
  entry ≠ "tint" ∧ entry ≠ "blend" ∧ entry ≠ "shake"

/-- Well-formedness of a binding as `addParam` creates it: numeric
`start`/`to` with `delta = to - start`, component-wise for `position`. -/
def wfEntry (e : EaseEntry) : Prop :=
  if e.entry = "position" then
    ∃ ps pe pd : Pt, e.start = Val.pt ps ∧ e.toV = Val.pt pe ∧ e.delta = Val.pt pd ∧
      pd.x = pe.x - ps.x ∧ pd.y = pe.y - ps.y
  else
    ∃ a b : ℚ, e.start = Val.num a ∧ e.toV = Val.num b ∧ e.delta = Val.num (b - a)

/-- The `(element, field)` pairs a binding's per-tick update writes. -/
def writtenFields (e : EaseEntry) : List (ℕ × String) :=
  match e.entry with
  | "scaleX" => [(e.element, "scale")]
  | "skewX" => [(e.element, "skew")]
  | "scaleY" => [(e.element, "scale")]
  | "skewY" => [(e.element, "skew")]
  | "tint" => [(e.element, "tint")]
  | "blend" => [(e.element, "tint")]
  | "shake" => [(e.element, "x"), (e.element, "y")]
  | "position" => [(e.element, "x"), (e.element, "y")]
  | "skew" => [(e.element, "skew")]
  | "scale" => [(e.element, "scale")]
  | "face" => [(e.element, "rotation")]
  | other => [(e.element, other)]

/-- Read a field of a heap element. -/
def readF (w : World) (el : ℕ) (name : String) : Val := (w.elems el).fields name

/-- Every element's `scale` and `skew` fields hold 2-point sub-objects,
as they do on a real PIXI container.  The engine itself preserves this:
those two field names are written only through `setCoord`. -/
def PtWorld (w : World) : Prop :=
  ∀ el, (∃ p, readF w el "scale" = Val.pt p) ∧ (∃ p, readF w el "skew" = Val.pt p)

/-- The binding's targeted component(s) currently hold the components of
value `v`. -/
def holdsVal (w : World) (e : EaseEntry) (v : Val) : Prop :=
  match e.entry with
  | "scaleX" => ∃ p, readF w e.element "scale" = .pt p ∧ p.x = v.toNum
  | "scaleY" => ∃ p, readF w e.element "scale" = .pt p ∧ p.y = v.toNum
  | "skewX" => ∃ p, readF w e.element "skew" = .pt p ∧ p.x = v.toNum
  | "skewY" => ∃ p, readF w e.element "skew" = .pt p ∧ p.y = v.toNum
  | "skew" => ∃ p, readF w e.element "skew" = .pt p ∧ p.x = v.toNum ∧ p.y = v.toNum
  | "scale" => ∃ p, readF w e.element "scale" = .pt p ∧ p.x = v.toNum ∧ p.y = v.toNum
  | "position" => readF w e.element "x" = .num v.toPt.x ∧ readF w e.element "y" = .num v.toPt.y
  | "face" => readF w e.element "rotation" = .num v.toNum
  | other => readF w e.element other = .num v.toNum

/-- A list of per-call increments that reaches the phase end exactly:
every proper prefix stays strictly below `D`, the last call lands on `D`
(no overshoot, so the boundary leftover is zero). -/
def hitsExactly (t D : ℚ) : List ℚ → Prop
  | [] => False
  | [e] => t + e = D
  | e :: rest => t + e < D ∧ hitsExactly (t + e) D rest

/-- The group scheduler state (class `Ease`, src/ease.ts): live sessions
by id, the `empty` flag, whether a `requestAnimationFrame` handle is
outstanding, whether the constructor subscribed to a ticker, and the
relevant options. -/
structure Ease where
  useRAF : Bool
  hasTicker : Bool
  easings : List ℕ
  empty : Bool
  handleRAF : Bool
  tickerSub : Bool

/-- The `Ease` constructor (src/ease.ts lines 62-70): starts empty and
unarmed, but subscribes to the ticker right away when one is configured. -/
def Ease.init (useRAF hasTicker : Bool) : Ease :=
  { useRAF := useRAF, hasTicker := hasTicker, easings := [], empty := true,
    handleRAF := false, tickerSub := hasTicker }

/-- `Ease.add` (src/ease.ts lines 88-106): push the new session, arm the
RAF source when the group was empty, clear the `empty` flag. -/
def Ease.addOp (g : Ease) (id : ℕ) : Ease :=
  let g1 := { g with easings := g.easings ++ [id] }
  let g2 := if g1.empty && g1.useRAF then { g1 with handleRAF := true } else g1
  { g2 with empty := false }

/-- What a session's `update` call does to the group during one tick,
seen from the scheduler: whether the session reports finished, and how
the callbacks it fires synchronously mutate the live-session list
(`destroy`, `add`, ... re-entered from `complete`/`each` handlers). -/
structure TickOracle where
  finished : ℕ → Bool
  effect : ℕ → List ℕ → List ℕ

/-- JS `Array.prototype.indexOf` (identity search, `-1` when absent). -/
def Ease.jsIndexOf (l : List ℕ) (a : ℕ) : ℤ :=
  match l with
  | [] => -1
  | b :: rest =>
    if b = a then 0
    else
      let r := Ease.jsIndexOf rest a
      if r = -1 then -1 else r + 1

/-- JS `Array.prototype.splice(start, 1)`: a negative `start` counts from
the end (clamped at 0), an overlarge one removes nothing. -/
def Ease.jsSpliceRemove (l : List ℕ) (start : ℤ) : List ℕ :=
  let len : ℤ := l.length
  let s := (if start < 0 then max (len + start) 0 else min start len).toNat
  l.take s ++ l.drop (s + 1)

/-- One iteration of the snapshot loop of `Ease.update` (src/ease.ts
lines 184-189): run the session (its callbacks mutate the list), then
`splice(indexOf(easing), 1)` when it finished. -/
def Ease.tickStep (o : TickOracle) (es : List ℕ) (e : ℕ) : List ℕ :=
  let es1 := o.effect e es
  if o.finished e then Ease.jsSpliceRemove es1 (Ease.jsIndexOf es1 e) else es1

/-- The snapshot loop: iterate the remaining snapshot against the current
list, recording the sessions actually advanced. -/
def Ease.tickAux (o : TickOracle) : List ℕ → List ℕ → List ℕ × List ℕ
  | [], es => ([], es)
  | e :: rest, es =>
    let es1 := Ease.tickStep o es e
    let r := Ease.tickAux o rest es1
    (e :: r.1, r.2)

/-- The session-processing part of `Ease.update` (src/ease.ts lines
183-190): `const list = this.easings.slice(0)` then the loop.  Returns
(sessions advanced, final live list). -/
def Ease.tick (o : TickOracle) (easings : List ℕ) : List ℕ × List ℕ :=
  Ease.tickAux o easings easings

/-- `Ease.update` as the scheduler sees it (src/ease.ts lines 174-201):
process the snapshot when not empty, refresh the `empty` flag, then
re-arm the RAF source iff sessions remain. -/
def Ease.updateOp (g : Ease) (o : TickOracle) : Ease :=
  let g1 := if g.empty then g
    else
      let es := (Ease.tick o g.easings).2
      { g with easings := es, empty := if es = [] then true else g.empty }
  if g1.useRAF && decide (g1.easings ≠ []) then { g1 with handleRAF := true }
  else { g1 with handleRAF := false }

/-- `Ease.removeEase` (src/ease.ts lines 143-157): drop the sessions the
element/param filter empties, then cancel the RAF handle if the group
became empty. -/
def Ease.removeEaseOp (g : Ease) (removed : ℕ → Bool) : Ease :=
  let g1 := { g with easings := g.easings.filter (fun e => !removed e) }
  if g1.easings = [] then
    let g2 := { g1 with empty := true }
    if g2.useRAF && g2.handleRAF then { g2 with handleRAF := false } else g2
  else g1

/-- `Ease.removeAll` (src/ease.ts lines 162-169). -/
def Ease.removeAllOp (g : Ease) : Ease :=
  let g1 := { g with easings := [], empty := true }
  if g1.useRAF && g1.handleRAF then { g1 with handleRAF := false } else g1

/-- `Ease.destroy` (src/ease.ts lines 75-83): `removeAll`, then drop the
ticker subscription (when configured) or cancel the RAF handle. -/
def Ease.destroyOp (g : Ease) : Ease :=
  let g1 := g.removeAllOp
  if g1.hasTicker then { g1 with tickerSub := false }
  else if g1.useRAF && g1.handleRAF then { g1 with handleRAF := false } else g1

/-- Group states reachable through the public scheduler operations. -/
inductive Ease.Reach : Ease → Prop
  | init (useRAF hasTicker : Bool) : Ease.Reach (Ease.init useRAF hasTicker)
  | add {g} (id : ℕ) : Ease.Reach g → Ease.Reach (g.addOp id)
  | update {g} (o : TickOracle) : Ease.Reach g → Ease.Reach (g.updateOp o)
  | removeEase {g} (removed : ℕ → Bool) : Ease.Reach g → Ease.Reach (g.removeEaseOp removed)
  | destroy {g} : Ease.Reach g → Ease.Reach g.destroyOp

/-! Concrete instances used by the closed counterexample and witness
theorems below. -/

/-- The linear easing curve `t ↦ start + delta * t / duration`. -/
def linQ : ℚ → ℚ → ℚ → ℚ → ℚ := fun t s d dur => s + d * t / dur

/-- A container with `x = 5`, `y = 6`, other fields zero. -/
def conXY : Container :=
  ⟨false, fun s => if s = "x" then .num 5 else if s = "y" then .num 6 else .num 0⟩

/-- A world whose every slot holds `conXY`. -/
def wXY : World := ⟨fun _ => conXY, fun _ => 0, 0⟩

/-- A `shake` binding on element 0 with recorded start position `(1, 2)`
and jitter radius 4 (`delta` is `undefined` in JS, carried as `num 0`). -/
def shakeE : EaseEntry := ⟨0, "shake", .pt ⟨1, 2⟩, .num 4, .num 0, []⟩

/-- A generic scalar binding on the `x` field of element 0. -/
def fieldE : EaseEntry := ⟨0, "x", .num 5, .num 9, .num 4, []⟩

/-- A container with `x = 5`, `y = 6`, point-valued `scale` and `skew`,
other fields zero. -/
def conFull : Container :=
  ⟨false, fun s =>
    if s = "x" then .num 5 else if s = "y" then .num 6 else
    if s = "scale" then .pt ⟨1, 1⟩ else if s = "skew" then .pt ⟨0, 0⟩ else .num 0⟩

/-- A world whose every slot holds `conFull`. -/
def wFull : World := ⟨fun _ => conFull, fun _ => 0, 0⟩

/-- A container whose `tint` field is 7. -/
def conTint : Container := ⟨false, fun s => if s = "tint" then .num 7 else .num 0⟩

/-- A world whose every slot holds `conTint`. -/
def wTint : World := ⟨fun _ => conTint, fun _ => 0, 0⟩

/-- A `tint` binding with explicit color array `[5, 9]` as `addParam`
builds it: `start = 0`, `to = delta = 2`. -/
def tintE : EaseEntry := ⟨0, "tint", .num 0, .num 2, .num 2, [5, 9]⟩

/-- A reversing, non-repeating session over `tintE`: linear curve,
duration 2. -/
def tintS : Easing := ⟨[tintE], ⟨linQ, 2, true, .bool false, 0⟩, 0⟩

/-- A session over `fieldE` with `repeat = true`: linear curve, duration 10. -/
def clockS : Easing := ⟨[fieldE], ⟨linQ, 10, false, .bool true, 0⟩, 0⟩

/-- A session over `fieldE` with `repeat = 3`: linear curve, duration 4. -/
def rep3S : Easing := ⟨[fieldE], ⟨linQ, 4, false, .num 3, 0⟩, 0⟩

/-- A reversing session over `fieldE` with starting value recorded from
`conXY` (`start = x = 5`, `to = 9`, `delta = 4`): linear curve, duration 4. -/
def rtS : Easing := ⟨[fieldE], ⟨linQ, 4, true, .bool false, 0⟩, 0⟩

/-- The tick oracle of the wrongful-removal scenario: session 1 finishes,
and a callback it fires during its update empties the group (`destroy`)
and adds the fresh session 3; sessions 2 and 3 never finish. -/
def cxOracle : TickOracle :=
  ⟨fun n => n == 1, fun e es => if e == 1 then [3] else es⟩

/-! ### Basic reduction lemmas for the container/world model -/

theorem Container.fields_setV (c : Container) (n : String) (v : Val) (m : String) :
    (c.setV n v).fields m = if m = n then v else c.fields m := rfl

theorem Container.destroyed_setV (c : Container) (n : String) (v : Val) :
    (c.setV n v).destroyed = c.destroyed := rfl

theorem Container.destroyed_setCoord (c : Container) (n : String) (b : Bool) (q : ℚ) :
    (c.setCoord n b q).destroyed = c.destroyed := by
  unfold Container.setCoord
  cases c.fields n <;> rfl

theorem World.elems_setElem (w : World) (i : ℕ) (c : Container) (j : ℕ) :
    (w.setElem i c).elems j = if j = i then c else w.elems j := rfl

/-! ### C1 — `Ease.face` duration

`face` computes `duration = |shortestAngle - element.rotation| / speed`,
treating the angular *delta* returned by `shortestAngle` as if it were an
absolute angle; the specified `|angularDelta| / speed` (`specFaceDuration`)
disagrees whenever the current rotation is nonzero, and the produced ease
does not rotate the element toward the target, contradicting the
function's own doc comment. -/

/-- C1. At rotation `π/2`, bearing `0` (element at the origin facing up,
target at `(1, 0)`), speed `1`: the shortest delta is `-π/2`, so the
claim prescribes duration `π/2`, but the code produces `π`. -/
theorem face_duration_divergence :
    Ease.faceDuration (mathPI / 2) 0 1 = mathPI ∧
    specFaceDuration (mathPI / 2) 0 1 = mathPI / 2 ∧
    mathPI ≠ mathPI / 2 := by
  refine ⟨?_, ?_, by norm_num [mathPI]⟩ <;>
    norm_num [Ease.faceDuration, Ease.faceTo, specFaceDuration, Easing.shortestAngle,
      jsRem, modJs, jsTrunc, mathPI, abs_of_nonpos, abs_of_nonneg]

/-! ### C2 — shake resets -/

/-- C2 (amended). At terminal completion, `complete` resets a `shake`
binding's element position to the recorded start, and is the identity for
every other strategy; at a repeat boundary, however, the reset for a
`shake` binding falls into the generic branch of `repeat`, which writes
the start value into a property literally named `"shake"` and leaves the
element's `x`/`y` untouched. -/
theorem shake_reset_characterization (e : EaseEntry) (w : World) :
    (e.entry = "shake" → ∀ p : Pt, e.start = Val.pt p →
      readF (Easing.complete e w) e.element "x" = Val.num p.x ∧
      readF (Easing.complete e w) e.element "y" = Val.num p.y) ∧
    (e.entry ≠ "shake" → Easing.complete e w = w) ∧
    (e.entry = "shake" →
      readF (Easing.repeatEase e w) e.element "x" = readF w e.element "x" ∧
      readF (Easing.repeatEase e w) e.element "y" = readF w e.element "y" ∧
      readF (Easing.repeatEase e w) e.element "shake" = e.start) := by
  refine ⟨fun hs p hp => ?_, fun hns => ?_, fun hs => ?_⟩
  · simp [Easing.complete, hs, hp, readF, World.elems_setElem, Container.fields_setV, Val.toPt]
  · simp [Easing.complete, hns]
  · simp [Easing.repeatEase, hs, readF, World.elems_setElem, Container.fields_setV]

/-- C2 witness: concrete instances of all three parts, at a `shake`
binding with start `(1, 2)` in a world with `x = 5`, and at a generic
`x` binding. -/
theorem shake_reset_characterization_witness :
    (readF (Easing.complete shakeE wXY) 0 "x" = Val.num 1 ∧
     readF (Easing.complete shakeE wXY) 0 "y" = Val.num 2) ∧
    Easing.complete fieldE wXY = wXY ∧
    (readF (Easing.repeatEase shakeE wXY) 0 "x" = readF wXY 0 "x" ∧
     readF (Easing.repeatEase shakeE wXY) 0 "y" = readF wXY 0 "y" ∧
     readF (Easing.repeatEase shakeE wXY) 0 "shake" = shakeE.start) :=
  ⟨(shake_reset_characterization shakeE wXY).1 rfl ⟨1, 2⟩ rfl,
   (shake_reset_characterization fieldE wXY).2.1 (by decide),
   (shake_reset_characterization shakeE wXY).2.2 rfl⟩

/-- C2 counterexample: at a repeat boundary the claim says the `shake`
element's position returns to `start = (1, 2)`, but `repeat` leaves
`x = 5` in place. -/
theorem shake_repeat_no_position_reset :
    readF (Easing.repeatEase shakeE wXY) 0 "x" = Val.num 5 ∧
    shakeE.start.toPt.x = 1 ∧ (5 : ℚ) ≠ 1 := by
  refine ⟨?_, rfl, by norm_num⟩
  simp [Easing.repeatEase, shakeE, wXY, conXY, readF, World.elems_setElem,
    Container.fields_setV]

/-! ### C6 — tint index bounds -/

/-- C6 (amended). The floored curve output is replaced by `len - 1` only
in the exact case `⌊calc⌋ = len`; consequently the selected index is
within the bounds of the color sequence whenever the curve output lies in
`[0, len]` — outputs outside that interval are not clamped. -/
theorem tintIndex_bounds_in_range (calcV : ℚ) (len : ℕ) (hlen : 1 ≤ len)
    (h0 : 0 ≤ calcV) (h1 : calcV ≤ (len : ℚ)) :
    0 ≤ Easing.tintIndex calcV len ∧ Easing.tintIndex calcV len < (len : ℤ) := by
  have hf0 : 0 ≤ ⌊calcV⌋ := Int.floor_nonneg.2 h0
  have hf1 : ⌊calcV⌋ ≤ (len : ℤ) := by
    have := Int.floor_le_floor h1
    simpa using this
  simp only [Easing.tintIndex]
  split <;> omega

/-- C6 witness: curve output `3/2` over a 2-color sequence selects index
1, the last color. -/
theorem tintIndex_bounds_witness :
    0 ≤ Easing.tintIndex (3 / 2 : ℚ) 2 ∧ Easing.tintIndex (3 / 2 : ℚ) 2 < (2 : ℤ) :=
  tintIndex_bounds_in_range (3 / 2 : ℚ) 2 (by norm_num) (by norm_num) (by norm_num)

/-- C6 counterexample: a curve output of `-1/2` (e.g. from an
overshooting curve) floors to `-1`, which is not clamped and lies outside
the bounds of any sequence. -/
theorem tintIndex_out_of_bounds :
    Easing.tintIndex (-(1 : ℚ) / 2) 2 = -1 ∧ ¬ (0 ≤ (-1 : ℤ)) := by
  constructor
  · norm_num [Easing.tintIndex]
  · decide

/-! ### C10 — tint/blend registration -/

/-- C10. Registering a `tint`/`blend` property with a non-array value `v`
builds the two-color sequence `[element.tint, v]` (so the animation runs
from the element's current tint to `v`) with `start = 0`,
`to = delta = 2`; an array is used as the sequence directly with
`start = 0` and `to = delta = its length`. -/
theorem addParam_color_setup (el : ℕ) (entry : String) (tint v : ℚ) (l : List ℚ) :
    ((Easing.addParamColor el entry tint (.inl v)).colors = [tint, v] ∧
     (Easing.addParamColor el entry tint (.inl v)).start = Val.num 0 ∧
     (Easing.addParamColor el entry tint (.inl v)).toV = Val.num 2 ∧
     (Easing.addParamColor el entry tint (.inl v)).delta = Val.num 2) ∧
    ((Easing.addParamColor el entry tint (.inr l)).colors = l ∧
     (Easing.addParamColor el entry tint (.inr l)).start = Val.num 0 ∧
     (Easing.addParamColor el entry tint (.inr l)).toV = Val.num l.length ∧
     (Easing.addParamColor el entry tint (.inr l)).delta = Val.num l.length) := by
  simp [Easing.addParamColor]

/-! ### C5 — the shortest-angle algorithm -/

theorem jsRem_eq_fract (a n : ℚ) (ha : 0 ≤ a) (hn : 0 < n) :
    jsRem a n = n * Int.fract (a / n) := by
  have hdiv : 0 ≤ a / n := div_nonneg ha hn.le
  rw [jsRem, jsTrunc, if_pos hdiv, Int.fract]
  field_simp

theorem jsRem_shape (a n : ℚ) (hn : 0 < n) :
    ∃ k : ℤ, jsRem a n = a - n * k ∧ -n < jsRem a n ∧ jsRem a n < n := by
  refine ⟨jsTrunc (a / n), rfl, ?_, ?_⟩
  · rw [jsRem, jsTrunc]
    split
    · next h =>
      have h1 : (⌊a / n⌋ : ℚ) ≤ a / n := Int.floor_le _
      have h2 : a / n * n = a := div_mul_cancel₀ a hn.ne'
      nlinarith
    · next h =>
      have h1 : a / n ≤ (⌈a / n⌉ : ℚ) := Int.le_ceil _
      have h3 : (⌈a / n⌉ : ℚ) < a / n + 1 := by
        have := Int.ceil_lt_add_one (a / n)
        linarith
      have h2 : a / n * n = a := div_mul_cancel₀ a hn.ne'
      nlinarith
  · rw [jsRem, jsTrunc]
    split
    · next h =>
      have h1 : a / n < (⌊a / n⌋ : ℚ) + 1 := Int.lt_floor_add_one _
      have h2 : a / n * n = a := div_mul_cancel₀ a hn.ne'
      nlinarith
    · next h =>
      have h1 : a / n ≤ (⌈a / n⌉ : ℚ) := Int.le_ceil _
      have h2 : a / n * n = a := div_mul_cancel₀ a hn.ne'
      nlinarith

theorem modJs_eq_fract (a n : ℚ) (hn : 0 < n) :
    modJs a n = n * Int.fract (a / n) := by
  obtain ⟨k, hk, hlo, hhi⟩ := jsRem_shape a n hn
  rw [modJs, jsRem_eq_fract _ _ (by linarith) hn]
  have hdiv : (jsRem a n + n) / n = a / n - ((k - 1 : ℤ) : ℚ) := by
    rw [hk]
    push_cast
    field_simp
    ring
  rw [hdiv, Int.fract_sub_int]

theorem fract_add_half (x : ℚ) :
    Int.fract (x + 1 / 2) =
      if Int.fract x < 1 / 2 then Int.fract x + 1 / 2 else Int.fract x - 1 / 2 := by
  have h1 : Int.fract (x + 1 / 2) = Int.fract (Int.fract x + 1 / 2) := by
    conv_lhs => rw [← Int.floor_add_fract x, add_assoc, Int.fract_int_add]
  have h0 : 0 ≤ Int.fract x := Int.fract_nonneg x
  have hlt : Int.fract x < 1 := Int.fract_lt_one x
  rw [h1]
  rcases lt_or_le (Int.fract x) (1 / 2) with h | h
  · rw [if_pos h]
    exact Int.fract_eq_self.2 ⟨by linarith, by linarith⟩
  · rw [if_neg (not_lt.2 h)]
    rw [show Int.fract x + 1 / 2 = Int.fract x - 1 / 2 + ((1 : ℤ) : ℚ) by push_cast; ring,
      Int.fract_add_int]
    exact Int.fract_eq_self.2 ⟨by linarith, by linarith⟩

theorem mathPI_pos : (0 : ℚ) < mathPI := by norm_num [mathPI]

/-- Closed form of the shortest-angle algorithm: with
`u = fract((finish - start) / 2π) ∈ [0, 1)`, the result is `2π·u` when
`u < 1/2` and `2π·(u - 1)` otherwise. -/
theorem shortestAngle_closed (s f : ℚ) :
    Easing.shortestAngle s f =
      mathPI * 2 * Int.fract ((f - s) / (mathPI * 2)) -
        mathPI * 2 * (if Int.fract ((f - s) / (mathPI * 2)) < 1 / 2 then 0 else 1) := by
  have hp : (0 : ℚ) < mathPI := mathPI_pos
  have hP2 : (0 : ℚ) < mathPI * 2 := by linarith
  set u := Int.fract ((f - s) / (mathPI * 2)) with hu
  have hu0 : 0 ≤ u := Int.fract_nonneg _
  have hu1 : u < 1 := Int.fract_lt_one _
  have habs : |s - f| = |f - s| := abs_sub_comm s f
  have hfa : Int.fract (|f - s| / (mathPI * 2)) = u ∨
      (Int.fract (|f - s| / (mathPI * 2)) = 1 - u ∧ u ≠ 0) := by
    rcases le_or_lt 0 (f - s) with hfs | hfs
    · left
      rw [abs_of_nonneg hfs]
    · rw [abs_of_neg hfs]
      by_cases h0 : u = 0
      · left
        rw [show -(f - s) / (mathPI * 2) = -((f - s) / (mathPI * 2)) by ring,
          Int.fract_neg_eq_zero.2 (hu ▸ h0), h0]
      · right
        refine ⟨?_, h0⟩
        rw [show -(f - s) / (mathPI * 2) = -((f - s) / (mathPI * 2)) by ring,
          Int.fract_neg (hu ▸ h0)]
  have hd0 : jsRem |s - f| (mathPI * 2) = mathPI * 2 * Int.fract (|f - s| / (mathPI * 2)) := by
    rw [habs]
    exact jsRem_eq_fract _ _ (abs_nonneg _) hP2
  have hM : modJs (f - s + mathPI) (mathPI * 2) =
      mathPI * 2 * (if u < 1 / 2 then u + 1 / 2 else u - 1 / 2) := by
    rw [modJs_eq_fract _ _ hP2,
      show (f - s + mathPI) / (mathPI * 2) = (f - s) / (mathPI * 2) + 1 / 2 by
        field_simp; ring,
      fract_add_half, ← hu]
  simp only [Easing.shortestAngle]
  rw [hd0, hM]
  rcases lt_trichotomy u (1 / 2) with hlt | heq | hgt
  · rw [if_pos hlt, if_pos hlt]
    rcases hfa with hA | ⟨hA, hne⟩
    · rw [hA]
      by_cases h0 : u = 0
      · rw [h0]
        rw [if_neg (by nlinarith), if_neg (by nlinarith)]
        ring
      · have h0' : 0 < u := lt_of_le_of_ne hu0 (Ne.symm h0)
        rw [if_neg (by nlinarith), if_pos (by nlinarith)]
        ring
    · have h0' : 0 < u := lt_of_le_of_ne hu0 (Ne.symm hne)
      rw [hA, if_pos (by nlinarith), if_pos (by nlinarith)]
      ring
  · have hnlt : ¬ u < 1 / 2 := by rw [heq]; exact lt_irrefl _
    rw [if_neg hnlt, if_neg hnlt]
    have hsign : ¬ mathPI < mathPI * 2 * (u - 1 / 2) := by
      rw [heq]; norm_num [mathPI]
    rw [if_neg hsign]
    have hdiff : ¬ mathPI < mathPI * 2 * (1 / 2 : ℚ) := by norm_num [mathPI]
    rcases hfa with hA | ⟨hA, hne⟩
    · rw [hA, heq, if_neg hdiff]
      ring
    · have h12 : (1 : ℚ) - u = 1 / 2 := by rw [heq]; norm_num
      rw [hA, h12, if_neg hdiff, heq]
      ring
  · rw [if_neg (not_lt.2 hgt.le), if_neg (not_lt.2 hgt.le)]
    rcases hfa with hA | ⟨hA, hne⟩
    · rw [hA, if_pos (by nlinarith), if_neg (by nlinarith)]
      ring
    · rw [hA, if_neg (by nlinarith), if_neg (by nlinarith)]
      ring

/-- C5 (amended). For all `start` and `finish`, the returned delta lies in
the half-open interval `[-π, π)` — it attains `-π` at an exact half-turn
and never attains `+π` — and `start + delta ≡ finish (mod 2π)`. -/
theorem shortestAngle_range_and_congruence (s f : ℚ) :
    (-mathPI ≤ Easing.shortestAngle s f ∧ Easing.shortestAngle s f < mathPI) ∧
    ∃ k : ℤ, s + Easing.shortestAngle s f - f = mathPI * 2 * k := by
  have hp : (0 : ℚ) < mathPI := mathPI_pos
  rw [shortestAngle_closed]
  set u := Int.fract ((f - s) / (mathPI * 2)) with hu
  have hu0 : 0 ≤ u := Int.fract_nonneg _
  have hu1 : u < 1 := Int.fract_lt_one _
  have hsplit : (f - s) = mathPI * 2 * ((⌊(f - s) / (mathPI * 2)⌋ : ℚ) + u) := by
    rw [hu, Int.fract]
    field_simp
    ring
  constructor
  · split
    · next h => constructor <;> nlinarith
    · next h =>
      push_neg at h
      constructor <;> nlinarith
  · refine ⟨if u < 1 / 2 then -⌊(f - s) / (mathPI * 2)⌋ else -(⌊(f - s) / (mathPI * 2)⌋ + 1), ?_⟩
    split
    · next h =>
      push_cast
      linarith [hsplit]
    · next h =>
      push_cast
      linarith [hsplit]

/-- C5 counterexample: at `start = 0`, `finish = π` (an exact half-turn)
the algorithm returns `-π`, violating the claimed strict lower bound
`-π < delta`. -/
theorem shortestAngle_neg_pi_boundary :
    Easing.shortestAngle 0 mathPI = -mathPI ∧
    ¬ (-mathPI < Easing.shortestAngle 0 mathPI) := by
  have h : Easing.shortestAngle 0 mathPI = -mathPI := by
    norm_num [Easing.shortestAngle, jsRem, modJs, jsTrunc, mathPI, abs_of_nonpos,
      abs_of_nonneg]
  exact ⟨h, by rw [h]; exact lt_irrefl _⟩

/-! ### C3 — lazy frame subscription -/

theorem Ease.hasTicker_addOp (g : Ease) (id : ℕ) : (g.addOp id).hasTicker = g.hasTicker := by
  simp [Ease.addOp, apply_ite Ease.hasTicker]

theorem Ease.hasTicker_updateOp (g : Ease) (o : TickOracle) :
    (g.updateOp o).hasTicker = g.hasTicker := by
  simp [Ease.updateOp, apply_ite Ease.hasTicker]

theorem Ease.hasTicker_removeEaseOp (g : Ease) (removed : ℕ → Bool) :
    (g.removeEaseOp removed).hasTicker = g.hasTicker := by
  simp [Ease.removeEaseOp, apply_ite Ease.hasTicker]

theorem Ease.hasTicker_removeAllOp (g : Ease) : g.removeAllOp.hasTicker = g.hasTicker := by
  simp [Ease.removeAllOp, apply_ite Ease.hasTicker]

theorem Ease.hasTicker_destroyOp (g : Ease) : g.destroyOp.hasTicker = g.hasTicker := by
  simp [Ease.destroyOp, apply_ite Ease.hasTicker, Ease.hasTicker_removeAllOp]

theorem Ease.easings_removeAllOp (g : Ease) : g.removeAllOp.easings = [] := by
  simp [Ease.removeAllOp, apply_ite Ease.easings]

theorem Ease.empty_removeAllOp (g : Ease) : g.removeAllOp.empty = true := by
  simp [Ease.removeAllOp, apply_ite Ease.empty]

theorem Ease.handleRAF_removeAllOp (g : Ease) (h3 : g.handleRAF = true → g.useRAF = true) :
    g.removeAllOp.handleRAF = false := by
  cases hb : g.handleRAF
  · simp [Ease.removeAllOp, apply_ite Ease.handleRAF, hb]
  · simp [Ease.removeAllOp, apply_ite Ease.handleRAF, hb, h3 hb]

theorem Ease.easings_destroyOp (g : Ease) : g.destroyOp.easings = [] := by
  simp [Ease.destroyOp, apply_ite Ease.easings, Ease.easings_removeAllOp]

theorem Ease.empty_destroyOp (g : Ease) : g.destroyOp.empty = true := by
  simp [Ease.destroyOp, apply_ite Ease.empty, Ease.empty_removeAllOp]

theorem Ease.handleRAF_destroyOp (g : Ease) (h3 : g.handleRAF = true → g.useRAF = true) :
    g.destroyOp.handleRAF = false := by
  have h1 := Ease.handleRAF_removeAllOp g h3
  simp [Ease.destroyOp, apply_ite Ease.handleRAF, h1]

theorem ease_reach_inv (g : Ease) (hg : Ease.Reach g) :
    g.hasTicker = false →
      ((g.empty = true ↔ g.easings = []) ∧
       (g.handleRAF = true → g.easings ≠ []) ∧
       (g.handleRAF = true → g.useRAF = true)) := by
  induction hg with
  | init useRAF hasTicker =>
    intro _
    simp [Ease.init]
  | add id hg ih =>
    intro ht
    rw [Ease.hasTicker_addOp] at ht
    obtain ⟨ih1, ih2, ih3⟩ := ih ht
    simp only [Ease.addOp]
    split_ifs with h <;> simp_all
  | update o hg ih =>
    intro ht
    rw [Ease.hasTicker_updateOp] at ht
    obtain ⟨ih1, ih2, ih3⟩ := ih ht
    simp only [Ease.updateOp]
    split_ifs with h1 h2 h2 <;> (try simp_all) <;> (try (split_ifs <;> simp_all))
  | removeEase removed hg ih =>
    intro ht
    rw [Ease.hasTicker_removeEaseOp] at ht
    obtain ⟨ih1, ih2, ih3⟩ := ih ht
    simp only [Ease.removeEaseOp]
    split_ifs with h1 h2
    · simp_all
    · refine ⟨by simp_all, fun hr => ?_, ih3⟩
      exfalso
      have := ih3 hr
      simp_all
    · refine ⟨⟨fun he => absurd ?_ h1, fun he => absurd he h1⟩, fun _ => h1, ih3⟩
      rw [ih1.1 he]
      rfl
  | @destroy g1 hg ih =>
    intro ht
    rw [Ease.hasTicker_destroyOp] at ht
    obtain ⟨ih1, ih2, ih3⟩ := ih ht
    refine ⟨?_, ?_, ?_⟩
    · simp [Ease.empty_destroyOp, Ease.easings_destroyOp]
    · intro hr
      rw [Ease.handleRAF_destroyOp g1 ih3] at hr
      simp at hr
    · intro hr
      rw [Ease.handleRAF_destroyOp g1 ih3] at hr
      simp at hr

/-- C3 (amended). In RAF mode (no ticker configured): adding a session to
an empty group arms the frame request, and in every reachable group state
an outstanding frame request implies at least one live session — so a
group with zero sessions never holds a frame request, and the request is
gone as soon as the group empties.  (With a ticker configured the claim
fails: the constructor subscribes immediately, sessions or not — see the
counterexample.) -/
theorem raf_subscription_invariant :
    (∀ (g : Ease) (id : ℕ), g.useRAF = true → g.empty = true →
      (g.addOp id).handleRAF = true) ∧
    (∀ g : Ease, Ease.Reach g → g.hasTicker = false →
      ((g.empty = true ↔ g.easings = []) ∧ (g.handleRAF = true → g.easings ≠ []))) := by
  constructor
  · intro g id hu he
    simp [Ease.addOp, he, hu]
  · intro g hg ht
    obtain ⟨h1, h2, _⟩ := ease_reach_inv g hg ht
    exact ⟨h1, h2⟩

/-- C3 witness: the add-arms clause at a fresh RAF-mode group, and the
invariant at the same reachable constructor state. -/
theorem raf_subscription_invariant_witness :
    ((Ease.init true false).addOp 0).handleRAF = true ∧
    (((Ease.init true false).empty = true ↔ (Ease.init true false).easings = []) ∧
     ((Ease.init true false).handleRAF = true → (Ease.init true false).easings ≠ [])) :=
  ⟨raf_subscription_invariant.1 (Ease.init true false) 0 rfl rfl,
   raf_subscription_invariant.2 (Ease.init true false) (Ease.Reach.init true false) rfl⟩

/-- C3 counterexample: constructing a group with a ticker configured
creates the ticker subscription immediately, with zero sessions ever
added — refuting "a group with zero sessions never creates a frame-tick
subscription". -/
theorem ticker_subscription_at_zero_sessions :
    (Ease.init true true).tickerSub = true ∧ (Ease.init true true).easings = [] :=
  ⟨rfl, rfl⟩

/-! ### C4 — snapshot iteration and mid-tick removal -/

theorem jsIndexOf_mem_bounds (l : List ℕ) (a : ℕ) (h : a ∈ l) :
    0 ≤ Ease.jsIndexOf l a ∧ Ease.jsIndexOf l a < l.length := by
  induction l with
  | nil => cases h
  | cons b rest ih =>
    simp only [Ease.jsIndexOf]
    by_cases hb : b = a
    · rw [if_pos hb]
      refine ⟨le_refl 0, ?_⟩
      simp only [List.length_cons]
      push_cast
      omega
    · rw [if_neg hb]
      have hmem : a ∈ rest := by
        rcases List.mem_cons.1 h with h' | h'
        · exact absurd h'.symm hb
        · exact h'
      obtain ⟨hlo, hhi⟩ := ih hmem
      have hne : Ease.jsIndexOf rest a ≠ -1 := by omega
      rw [if_neg hne]
      simp only [List.length_cons]
      push_cast
      omega

theorem jsSplice_indexOf_erase (l : List ℕ) (a : ℕ) (h : a ∈ l) :
    Ease.jsSpliceRemove l (Ease.jsIndexOf l a) = l.erase a := by
  induction l with
  | nil => cases h
  | cons b rest ih =>
    by_cases hb : b = a
    · subst hb
      rw [show Ease.jsIndexOf (b :: rest) b = 0 by simp [Ease.jsIndexOf]]
      simp only [Ease.jsSpliceRemove]
      rw [if_neg (lt_irrefl 0), min_eq_left (by positivity)]
      simp [List.erase_cons]
    · have hmem : a ∈ rest := by
        rcases List.mem_cons.1 h with h' | h'
        · exact absurd h'.symm hb
        · exact h'
      obtain ⟨hlo, hhi⟩ := jsIndexOf_mem_bounds rest a hmem
      have hne : Ease.jsIndexOf rest a ≠ -1 := by omega
      simp only [Ease.jsIndexOf, if_neg hb, if_neg hne, Ease.jsSpliceRemove]
      rw [if_neg (by omega : ¬ Ease.jsIndexOf rest a + 1 < 0)]
      rw [min_eq_left (by simp only [List.length_cons]; push_cast; omega)]
      rw [show (Ease.jsIndexOf rest a + 1).toNat = (Ease.jsIndexOf rest a).toNat + 1 by omega]
      rw [List.take_succ_cons, List.drop_succ_cons]
      have ihe := ih hmem
      simp only [Ease.jsSpliceRemove] at ihe
      rw [if_neg (by omega : ¬ Ease.jsIndexOf rest a < 0),
        min_eq_left (le_of_lt hhi)] at ihe
      rw [List.erase_cons, if_neg (by simp [hb]), List.cons_append]
      exact congrArg (List.cons b) ihe

theorem tickAux_advances_snapshot (o : TickOracle) (rem cur : List ℕ) :
    (Ease.tickAux o rem cur).1 = rem := by
  induction rem generalizing cur with
  | nil => rfl
  | cons e rest ih =>
    simp only [Ease.tickAux]
    rw [ih]

/-- C4 (amended). During one group tick, iteration is over the snapshot
taken at tick start: exactly the sessions live at tick start are advanced,
once each, in order — sessions added by callbacks are not advanced this
tick.  A session that did not finish is never removed by the loop itself,
and when a finishing session is still present in the live list after its
callbacks ran, the loop's `splice(indexOf, 1)` removes exactly that
session.  (But if a callback has already removed the finishing session,
`indexOf` yields `-1` and `splice(-1, 1)` wrongly removes the last element
of the current list — see the counterexample.) -/
theorem tick_snapshot_and_exact_removal :
    (∀ (o : TickOracle) (es : List ℕ), (Ease.tick o es).1 = es) ∧
    (∀ (o : TickOracle) (es : List ℕ) (e : ℕ), o.finished e = false →
      Ease.tickStep o es e = o.effect e es) ∧
    (∀ (o : TickOracle) (es : List ℕ) (e : ℕ), o.finished e = true →
      e ∈ o.effect e es → Ease.tickStep o es e = (o.effect e es).erase e) := by
  refine ⟨fun o es => tickAux_advances_snapshot o es es, fun o es e hf => ?_, fun o es e hf hm => ?_⟩
  · simp [Ease.tickStep, hf]
  · simp only [Ease.tickStep, hf, if_pos]
    exact jsSplice_indexOf_erase _ _ hm

/-- C4 witness: the three clauses at concrete oracles — the snapshot of
`[1, 2]` is advanced as is; a non-finishing session is not removed; a
finishing session still present is the exact one removed. -/
theorem tick_snapshot_witness :
    (Ease.tick cxOracle [1, 2]).1 = [1, 2] ∧
    Ease.tickStep cxOracle [5] 2 = cxOracle.effect 2 [5] ∧
    Ease.tickStep ⟨fun _ => true, fun _ es => es⟩ [1, 2] 1 = ([1, 2] : List ℕ).erase 1 :=
  ⟨tick_snapshot_and_exact_removal.1 cxOracle [1, 2],
   tick_snapshot_and_exact_removal.2.1 cxOracle [5] 2 (by decide),
   tick_snapshot_and_exact_removal.2.2 ⟨fun _ => true, fun _ es => es⟩ [1, 2] 1 rfl (by decide)⟩

/-- C4 counterexample: sessions `[1, 2]` are ticked; session 1 finishes
and its callback empties the group (`destroy`) and adds the fresh session
3.  The loop's `splice(indexOf(1) = -1, 1)` then removes the *last*
element — the innocent session 3, which never finished and which no
callback removed — leaving the group empty. -/
theorem tick_splice_removes_wrong_session :
    (Ease.tick cxOracle [1, 2]).2 = [] ∧
    cxOracle.finished 2 = false ∧ cxOracle.finished 3 = false ∧
    cxOracle.effect 1 [1, 2] = [3] := by
  refine ⟨?_, rfl, rfl, rfl⟩
  decide

/-! ### Session-machine step lemmas (shared by the clock, repeat and
round-trip developments) -/

theorem destroyed_setElem (w : World) (j : ℕ) (c : Container) (i : ℕ)
    (hc : c.destroyed = (w.elems j).destroyed) :
    ((w.setElem j c).elems i).destroyed = (w.elems i).destroyed := by
  simp only [World.setElem]
  by_cases hij : i = j
  · subst hij
    simp [hc]
  · simp [hij]

theorem destroyed_applyEase (o : AddOptions) (t : ℚ) (e : EaseEntry) (w : World) (i : ℕ) :
    ((Easing.applyEase o t e w).elems i).destroyed = (w.elems i).destroyed := by
  rcases e with ⟨el, en, st, tv, dl, co⟩
  simp only [Easing.applyEase]
  split <;>
    simp only [Easing.updateCoord, Easing.updateOne, Easing.updatePoint,
      Easing.updatePosition, Easing.updateTint, Easing.updateBlend, Easing.updateShake,
      World.draw] <;>
    (apply destroyed_setElem) <;>
    simp [Container.destroyed_setV, Container.destroyed_setCoord]

theorem destroyed_complete (e : EaseEntry) (w : World) (i : ℕ) :
    ((Easing.complete e w).elems i).destroyed = (w.elems i).destroyed := by
  simp only [Easing.complete]
  split
  · apply destroyed_setElem
    simp [Container.destroyed_setV]
  · rfl

theorem destroyed_repeatEase (e : EaseEntry) (w : World) (i : ℕ) :
    ((Easing.repeatEase e w).elems i).destroyed = (w.elems i).destroyed := by
  rcases e with ⟨el, en, st, tv, dl, co⟩
  simp only [Easing.repeatEase]
  apply destroyed_setElem
  split <;> simp [Container.destroyed_setV, Container.destroyed_setCoord]

theorem destroyed_runAll (f : EaseEntry → World → World)
    (hf : ∀ e w i, ((f e w).elems i).destroyed = (w.elems i).destroyed)
    (es : List EaseEntry) (w : World) (i : ℕ) :
    ((Easing.runAll f es w).elems i).destroyed = (w.elems i).destroyed := by
  induction es generalizing w with
  | nil => rfl
  | cons e rest ih =>
    show ((Easing.runAll f rest (f e w)).elems i).destroyed = _
    rw [ih, hf]

theorem alive_of_destroyed_eq {w w' : World}
    (h : ∀ i, (w'.elems i).destroyed = (w.elems i).destroyed)
    {es : List EaseEntry} (ha : Easing.Alive w es) : Easing.Alive w' es :=
  fun e he => (h e.element).trans (ha e he)

theorem updateEases_of_alive (o : AddOptions) (t : ℚ) (es : List EaseEntry) (w : World)
    (h : Easing.Alive w es) :
    Easing.updateEases o t es w = (es, Easing.runAll (Easing.applyEase o t) es w) := by
  induction es generalizing w with
  | nil => rfl
  | cons e rest ih =>
    have he : (w.elems e.element).destroyed = false := h e (List.mem_cons_self _ _)
    have hrest : Easing.Alive (Easing.applyEase o t e w) rest :=
      alive_of_destroyed_eq (destroyed_applyEase o t e w)
        (fun e' he' => h e' (List.mem_cons_of_mem _ he'))
    simp only [Easing.updateEases]
    rw [if_neg (by simp [he]), ih _ hrest]
    rfl

/-! Point-valuedness of `scale`/`skew` fields is preserved by every write
the machine performs. -/

theorem readF_setElem (w : World) (j : ℕ) (c : Container) (el : ℕ) (name : String) :
    readF (w.setElem j c) el name = if el = j then c.fields name else readF w el name := by
  simp only [readF, World.setElem]
  by_cases h : el = j
  · subst h
    simp
  · simp [h]

theorem fields_setCoord_ne (c : Container) (n : String) (b : Bool) (q : ℚ) (m : String)
    (hm : m ≠ n) : (c.setCoord n b q).fields m = c.fields m := by
  simp only [Container.setCoord]
  split
  · simp [Container.setV, hm]
  · rfl

theorem fields_setCoord_pt (c : Container) (n : String) (b : Bool) (q : ℚ) (p : Pt)
    (hp : c.fields n = .pt p) :
    (c.setCoord n b q).fields n = .pt (if b then { p with x := q } else { p with y := q }) := by
  simp only [Container.setCoord, hp]
  simp [Container.setV]

theorem PtWorld_setElem (w : World) (j : ℕ) (c : Container) (hw : PtWorld w)
    (hc1 : ∃ p, c.fields "scale" = Val.pt p) (hc2 : ∃ p, c.fields "skew" = Val.pt p) :
    PtWorld (w.setElem j c) := by
  intro el
  by_cases h : el = j
  · subst h
    constructor <;> simp [readF_setElem] <;> [exact hc1; exact hc2]
  · constructor <;> simp [readF_setElem, h] <;> [exact (hw el).1; exact (hw el).2]

theorem PtWorld_applyEase (o : AddOptions) (t : ℚ) (e : EaseEntry) (w : World)
    (hw : PtWorld w) : PtWorld (Easing.applyEase o t e w) := by
  rcases e with ⟨el, en, st, tv, dl, co⟩
  obtain ⟨⟨p1, hp1⟩, ⟨p2, hp2⟩⟩ := hw el
  have hp1' : (w.elems el).fields "scale" = .pt p1 := hp1
  have hp2' : (w.elems el).fields "skew" = .pt p2 := hp2
  simp only [Easing.applyEase]
  split <;>
    simp only [Easing.updateCoord, Easing.updateOne, Easing.updatePoint,
      Easing.updatePosition, Easing.updateTint, Easing.updateBlend, Easing.updateShake,
      World.draw]
  case _ =>
    exact PtWorld_setElem _ _ _ hw ⟨_, fields_setCoord_pt _ _ _ _ p1 hp1'⟩
      ⟨p2, by rw [fields_setCoord_ne _ _ _ _ _ (by decide)]; exact hp2'⟩
  case _ =>
    exact PtWorld_setElem _ _ _ hw
      ⟨p1, by rw [fields_setCoord_ne _ _ _ _ _ (by decide)]; exact hp1'⟩
      ⟨_, fields_setCoord_pt _ _ _ _ p2 hp2'⟩
  case _ =>
    exact PtWorld_setElem _ _ _ hw ⟨_, fields_setCoord_pt _ _ _ _ p1 hp1'⟩
      ⟨p2, by rw [fields_setCoord_ne _ _ _ _ _ (by decide)]; exact hp2'⟩
  case _ =>
    exact PtWorld_setElem _ _ _ hw
      ⟨p1, by rw [fields_setCoord_ne _ _ _ _ _ (by decide)]; exact hp1'⟩
      ⟨_, fields_setCoord_pt _ _ _ _ p2 hp2'⟩
  case _ =>
    exact PtWorld_setElem _ _ _ hw
      ⟨p1, by rw [Container.fields_setV, if_neg (by decide)]; exact hp1'⟩
      ⟨p2, by rw [Container.fields_setV, if_neg (by decide)]; exact hp2'⟩
  case _ =>
    exact PtWorld_setElem _ _ _ hw
      ⟨p1, by rw [Container.fields_setV, if_neg (by decide)]; exact hp1'⟩
      ⟨p2, by rw [Container.fields_setV, if_neg (by decide)]; exact hp2'⟩
  case _ =>
    exact PtWorld_setElem _ _ _ hw
      ⟨p1, by
        rw [Container.fields_setV, if_neg (by decide), Container.fields_setV,
          if_neg (by decide)]
        exact hp1'⟩
      ⟨p2, by
        rw [Container.fields_setV, if_neg (by decide), Container.fields_setV,
          if_neg (by decide)]
        exact hp2'⟩
  case _ =>
    exact PtWorld_setElem _ _ _ hw
      ⟨p1, by
        rw [Container.fields_setV, if_neg (by decide), Container.fields_setV,
          if_neg (by decide)]
        exact hp1'⟩
      ⟨p2, by
        rw [Container.fields_setV, if_neg (by decide), Container.fields_setV,
          if_neg (by decide)]
        exact hp2'⟩
  case _ =>
    exact PtWorld_setElem _ _ _ hw
      ⟨p1, by
        rw [fields_setCoord_ne _ _ _ _ _ (by decide),
          fields_setCoord_ne _ _ _ _ _ (by decide)]
        exact hp1'⟩
      ⟨_, fields_setCoord_pt _ _ _ _ _ (fields_setCoord_pt _ _ _ _ p2 hp2')⟩
  case _ =>
    exact PtWorld_setElem _ _ _ hw
      ⟨_, fields_setCoord_pt _ _ _ _ _ (fields_setCoord_pt _ _ _ _ p1 hp1')⟩
      ⟨p2, by
        rw [fields_setCoord_ne _ _ _ _ _ (by decide),
          fields_setCoord_ne _ _ _ _ _ (by decide)]
        exact hp2'⟩
  case _ =>
    exact PtWorld_setElem _ _ _ hw
      ⟨p1, by rw [Container.fields_setV, if_neg (by decide)]; exact hp1'⟩
      ⟨p2, by rw [Container.fields_setV, if_neg (by decide)]; exact hp2'⟩
  case _ =>
    rename_i h1 h2 h3 h4 h5 h6 h7 h8 h9 h10 h11
    exact PtWorld_setElem _ _ _ hw
      ⟨p1, by
        rw [Container.fields_setV, if_neg (fun hh => h10 hh.symm)]
        exact hp1'⟩
      ⟨p2, by
        rw [Container.fields_setV, if_neg (fun hh => h9 hh.symm)]
        exact hp2'⟩

theorem PtWorld_runAll_applyEase (o : AddOptions) (t : ℚ) (es : List EaseEntry) (w : World)
    (hw : PtWorld w) : PtWorld (Easing.runAll (Easing.applyEase o t) es w) := by
  induction es generalizing w with
  | nil => exact hw
  | cons e rest ih =>
    exact ih _ (PtWorld_applyEase o t e w hw)

/-! The four exact shapes one `Easing.update` call can take when no wait
is pending and every binding's element is alive. -/

theorem Easing.step_advance (s : Easing) (w : World) (e : ℚ)
    (hw : s.options.wait = 0) (hne : s.eases ≠ [])
    (ha : Easing.Alive w s.eases)
    (hnb : s.time + e < s.options.duration) :
    Easing.update s w e =
      (⟨s.eases, s.options, s.time + e⟩,
       Easing.runAll (Easing.applyEase s.options (s.time + e)) s.eases w, false, ["each"]) := by
  have h1 : ¬ s.eases.length = 0 := by simpa using hne
  have h2 : ¬ s.options.wait ≠ 0 := by simp [hw]
  have h3 : ¬ s.options.duration ≤ s.time + e := not_le.2 hnb
  simp only [Easing.update, if_neg h1, if_neg h2, Easing.updateCore, if_neg h3,
    updateEases_of_alive _ _ _ _ ha]
  rfl

theorem Easing.step_reverse (s : Easing) (w : World) (e : ℚ)
    (hw : s.options.wait = 0) (hne : s.eases ≠ [])
    (ha : Easing.Alive w s.eases)
    (hb : s.options.duration ≤ s.time + e)
    (hrev : s.options.reverse = true) :
    Easing.update s w e =
      (⟨s.eases.map Easing.reverseEase,
        (if s.options.repeatOpt.truthy then
          (if s.options.repeatOpt ≠ RepeatOpt.bool true then
            { s.options with repeatOpt := s.options.repeatOpt.dec } else s.options)
         else { s.options with reverse := false }),
        s.time + e - s.options.duration⟩,
       (if s.time + e - s.options.duration ≠ 0 then
          Easing.runAll (Easing.applyEase s.options (s.time + e - s.options.duration))
            (s.eases.map Easing.reverseEase)
            (Easing.runAll (Easing.applyEase s.options s.options.duration) s.eases w)
        else Easing.runAll (Easing.applyEase s.options s.options.duration) s.eases w),
       false, ["each", "reverse"]) := by
  have h1 : ¬ s.eases.length = 0 := by simpa using hne
  have h2 : ¬ s.options.wait ≠ 0 := by simp [hw]
  simp only [Easing.update, if_neg h1, if_neg h2, Easing.updateCore, if_pos hb,
    le_refl, if_true, hrev, updateEases_of_alive _ _ _ _ ha]
  rfl

theorem Easing.step_repeat (s : Easing) (w : World) (e : ℚ)
    (hw : s.options.wait = 0) (hne : s.eases ≠ [])
    (ha : Easing.Alive w s.eases)
    (hb : s.options.duration ≤ s.time + e)
    (hrev : s.options.reverse = false)
    (htr : s.options.repeatOpt.truthy = true) :
    Easing.update s w e =
      (⟨s.eases,
        (if s.options.repeatOpt ≠ RepeatOpt.bool true then
          { s.options with repeatOpt := s.options.repeatOpt.dec } else s.options),
        s.time + e - s.options.duration⟩,
       (if s.time + e - s.options.duration ≠ 0 then
          Easing.runAll (Easing.applyEase s.options (s.time + e - s.options.duration))
            s.eases
            (Easing.runAll Easing.repeatEase s.eases
              (Easing.runAll (Easing.applyEase s.options s.options.duration) s.eases w))
        else Easing.runAll Easing.repeatEase s.eases
          (Easing.runAll (Easing.applyEase s.options s.options.duration) s.eases w)),
       false, ["each", "repeat"]) := by
  have h1 : ¬ s.eases.length = 0 := by simpa using hne
  have h2 : ¬ s.options.wait ≠ 0 := by simp [hw]
  simp only [Easing.update, if_neg h1, if_neg h2, Easing.updateCore, if_pos hb,
    le_refl, if_true, hrev, htr, updateEases_of_alive _ _ _ _ ha, Bool.false_eq_true,
    if_false]
  rfl

theorem Easing.step_complete (s : Easing) (w : World) (e : ℚ)
    (hw : s.options.wait = 0) (hne : s.eases ≠ [])
    (ha : Easing.Alive w s.eases)
    (hb : s.options.duration ≤ s.time + e)
    (hrev : s.options.reverse = false)
    (htr : s.options.repeatOpt.truthy = false) :
    Easing.update s w e =
      (⟨s.eases, s.options, s.options.duration⟩,
       Easing.runAll Easing.complete s.eases
         (Easing.runAll (Easing.applyEase s.options s.options.duration) s.eases w),
       true, ["each", "complete"]) := by
  have h1 : ¬ s.eases.length = 0 := by simpa using hne
  have h2 : ¬ s.options.wait ≠ 0 := by simp [hw]
  simp only [Easing.update, if_neg h1, if_neg h2, Easing.updateCore, if_pos hb,
    le_refl, if_true, hrev, htr, updateEases_of_alive _ _ _ _ ha, Bool.false_eq_true,
    if_false]
  rfl

/-! ### C9 — clock bounds and leftover conservation -/

/-- C9 (amended). For an update with no wait pending, a live nonempty
session and a non-negative increment: the clock stays non-negative; it
stays at most `duration` provided the increment is at most `duration`
(an increment larger than that can leave the clock beyond `duration`
after a repeat/reverse boundary — see the counterexample); and time is
conserved exactly: below the boundary the clock advances by the
increment, at a boundary it rests at `duration` when the session
finishes and otherwise the overshoot `time + elapsed - duration` becomes
the next phase's clock (with bindings re-updated at it when positive). -/
theorem update_clock_conservation (s : Easing) (w : World) (e : ℚ)
    (hw : s.options.wait = 0) (hne : s.eases ≠ [])
    (ha : Easing.Alive w s.eases)
    (ht0 : 0 ≤ s.time) (htD : s.time ≤ s.options.duration)
    (hD : 0 < s.options.duration) (he : 0 ≤ e) :
    (0 ≤ (Easing.update s w e).1.time) ∧
    (e ≤ s.options.duration → (Easing.update s w e).1.time ≤ s.options.duration) ∧
    (s.options.duration ≤ s.time + e →
      ((Easing.update s w e).2.2.1 = true → (Easing.update s w e).1.time = s.options.duration) ∧
      ((Easing.update s w e).2.2.1 = false →
        (Easing.update s w e).1.time = s.time + e - s.options.duration)) ∧
    (s.time + e < s.options.duration → (Easing.update s w e).1.time = s.time + e) := by
  rcases lt_or_le (s.time + e) s.options.duration with hnb | hb
  · rw [Easing.step_advance s w e hw hne ha hnb]
    dsimp only
    exact ⟨by linarith, fun _ => hnb.le, fun hcon => absurd hcon (not_le.2 hnb), fun _ => rfl⟩
  · cases hrev : s.options.reverse
    · cases htr : s.options.repeatOpt.truthy
      · rw [Easing.step_complete s w e hw hne ha hb hrev htr]
        dsimp only
        exact ⟨hD.le, fun _ => le_refl _, fun _ => ⟨fun _ => rfl, fun hfin => by simp at hfin⟩,
          fun hcon => absurd hb (not_le.2 hcon)⟩
      · rw [Easing.step_repeat s w e hw hne ha hb hrev htr]
        dsimp only
        exact ⟨by linarith, fun hsm => by linarith, fun _ =>
          ⟨fun hfin => by simp at hfin, fun _ => rfl⟩,
          fun hcon => absurd hb (not_le.2 hcon)⟩
    · rw [Easing.step_reverse s w e hw hne ha hb hrev]
      dsimp only
      exact ⟨by linarith, fun hsm => by linarith, fun _ =>
        ⟨fun hfin => by simp at hfin, fun _ => rfl⟩,
        fun hcon => absurd hb (not_le.2 hcon)⟩

/-- C9 witness: a concrete session (duration 10, `repeat = true`) updated
by 3 from clock 0 lands at clock 3. -/
theorem update_clock_conservation_witness :
    (0 ≤ (Easing.update clockS wXY 3).1.time) ∧
    ((3 : ℚ) ≤ clockS.options.duration →
      (Easing.update clockS wXY 3).1.time ≤ clockS.options.duration) ∧
    (clockS.options.duration ≤ clockS.time + 3 →
      ((Easing.update clockS wXY 3).2.2.1 = true →
        (Easing.update clockS wXY 3).1.time = clockS.options.duration) ∧
      ((Easing.update clockS wXY 3).2.2.1 = false →
        (Easing.update clockS wXY 3).1.time = clockS.time + 3 - clockS.options.duration)) ∧
    (clockS.time + 3 < clockS.options.duration →
      (Easing.update clockS wXY 3).1.time = clockS.time + 3) :=
  update_clock_conservation clockS wXY 3 rfl (by simp [clockS])
    (by
      intro x hx
      simp only [clockS] at hx
      simp only [List.mem_singleton] at hx
      subst hx
      rfl)
    (by norm_num [clockS]) (by norm_num [clockS]) (by norm_num [clockS]) (by norm_num)

/-- C9 counterexample: duration 10, clock 0, `repeat = true`, one update
of 30 ms — the new clock is the leftover 20, violating the claimed
invariant `elapsed ≤ duration` after the call. -/
theorem update_clock_exceeds_duration :
    (Easing.update clockS wXY 30).1.time = 20 ∧
    clockS.options.duration = 10 ∧ ¬ ((20 : ℚ) ≤ 10) := by
  refine ⟨?_, rfl, by norm_num⟩
  norm_num [Easing.update, Easing.updateCore, Easing.updateEases, Easing.applyEase,
    Easing.updateOne, Easing.runAll, Easing.repeatEase, clockS, fieldE, wXY, conXY,
    linQ, World.setElem, Container.setV, RepeatOpt.truthy, Val.toNum]

/-! ### C8 — finite and boolean repeat -/

theorem alive_runAll_applyEase (o : AddOptions) (t : ℚ) (es es' : List EaseEntry)
    (w : World) (ha : Easing.Alive w es') :
    Easing.Alive (Easing.runAll (Easing.applyEase o t) es w) es' :=
  alive_of_destroyed_eq
    (fun i => destroyed_runAll _ (fun e w i => destroyed_applyEase o t e w i) es w i) ha

theorem alive_runAll_repeatEase (es es' : List EaseEntry) (w : World)
    (ha : Easing.Alive w es') :
    Easing.Alive (Easing.runAll Easing.repeatEase es w) es' :=
  alive_of_destroyed_eq
    (fun i => destroyed_runAll _ (fun e w i => destroyed_repeatEase e w i) es w i) ha

theorem count_each : (["each"] : List String).count "repeat" = 0 := rfl

theorem count_each_repeat : (["each", "repeat"] : List String).count "repeat" = 1 := rfl

theorem count_each_reverse : (["each", "reverse"] : List String).count "repeat" = 0 := rfl

theorem count_each_complete : (["each", "complete"] : List String).count "repeat" = 0 := rfl

theorem run_repeat_count (L : List ℚ) :
    ∀ (s : Easing) (w : World) (r : ℤ),
      s.options.wait = 0 → s.options.reverse = false → s.eases ≠ [] →
      Easing.Alive w s.eases → s.options.repeatOpt = RepeatOpt.num r → 0 ≤ r →
      (((Easing.run s w L).2.2.1 = true → ((Easing.run s w L).2.2.2 : ℤ) = r) ∧
       ((Easing.run s w L).2.2.1 = false → ((Easing.run s w L).2.2.2 : ℤ) ≤ r)) := by
  induction L with
  | nil =>
    intro s w r _ _ _ _ _ hr0
    refine ⟨fun h => by simp [Easing.run] at h, fun _ => ?_⟩
    simp only [Easing.run, Nat.cast_zero]
    exact hr0
  | cons e rest ih =>
    intro s w r hw hrev hne ha hrep hr0
    rcases lt_or_le (s.time + e) s.options.duration with hnb | hb
    · have hstep := Easing.step_advance s w e hw hne ha hnb
      have hal : Easing.Alive
          (Easing.runAll (Easing.applyEase s.options (s.time + e)) s.eases w) s.eases :=
        alive_runAll_applyEase _ _ _ _ _ ha
      have ihh := ih ⟨s.eases, s.options, s.time + e⟩
        (Easing.runAll (Easing.applyEase s.options (s.time + e)) s.eases w) r
        hw hrev hne hal hrep hr0
      simp only [Easing.run, hstep, count_each, Bool.false_eq_true, if_false,
        Nat.cast_add, Nat.cast_zero, zero_add]
      exact ihh
    · by_cases htr : s.options.repeatOpt.truthy = true
      · have hrne : r ≠ 0 := by
          rw [hrep] at htr
          simpa [RepeatOpt.truthy] using htr
        have hneq : s.options.repeatOpt ≠ RepeatOpt.bool true := by
          rw [hrep]
          simp
        have hstep := Easing.step_repeat s w e hw hne ha hb hrev htr
        rw [if_pos hneq] at hstep
        have hdec : s.options.repeatOpt.dec = RepeatOpt.num (r - 1) := by
          rw [hrep]
          rfl
        set w1 := (if s.time + e - s.options.duration ≠ 0 then
            Easing.runAll (Easing.applyEase s.options (s.time + e - s.options.duration))
              s.eases
              (Easing.runAll Easing.repeatEase s.eases
                (Easing.runAll (Easing.applyEase s.options s.options.duration) s.eases w))
          else Easing.runAll Easing.repeatEase s.eases
            (Easing.runAll (Easing.applyEase s.options s.options.duration) s.eases w))
          with hw1
        have hal : Easing.Alive w1 s.eases := by
          rw [hw1]
          split
          · exact alive_runAll_applyEase _ _ _ _ _
              (alive_runAll_repeatEase _ _ _ (alive_runAll_applyEase _ _ _ _ _ ha))
          · exact alive_runAll_repeatEase _ _ _ (alive_runAll_applyEase _ _ _ _ _ ha)
        have ihh := ih
          ⟨s.eases, { s.options with repeatOpt := s.options.repeatOpt.dec },
            s.time + e - s.options.duration⟩ w1 (r - 1)
          hw hrev hne hal (by simpa using hdec) (by omega)
        simp only [Easing.run, hstep, count_each_repeat, Bool.false_eq_true, if_false,
          Nat.cast_add, Nat.cast_one, ← hw1]
        obtain ⟨ih1, ih2⟩ := ihh
        constructor
        · intro hfin
          have := ih1 hfin
          push_cast
          push_cast at this
          omega
        · intro hfin
          have := ih2 hfin
          push_cast
          push_cast at this
          omega
      · have htr' : s.options.repeatOpt.truthy = false := by
          simpa using htr
        have hr00 : r = 0 := by
          rw [hrep] at htr'
          simpa [RepeatOpt.truthy] using htr'
        have hstep := Easing.step_complete s w e hw hne ha hb hrev htr'
        simp only [Easing.run, hstep, count_each_complete, if_true]
        exact ⟨fun _ => by simp [hr00], fun hcon => by simp at hcon⟩

theorem run_repeat_true (L : List ℚ) :
    ∀ (s : Easing) (w : World),
      s.options.wait = 0 → s.options.reverse = false → s.eases ≠ [] →
      Easing.Alive w s.eases → s.options.repeatOpt = RepeatOpt.bool true →
      (Easing.run s w L).2.2.1 = false := by
  induction L with
  | nil =>
    intro s w _ _ _ _ _
    simp [Easing.run]
  | cons e rest ih =>
    intro s w hw hrev hne ha hrep
    rcases lt_or_le (s.time + e) s.options.duration with hnb | hb
    · have hstep := Easing.step_advance s w e hw hne ha hnb
      simp only [Easing.run, hstep, Bool.false_eq_true, if_false]
      exact ih ⟨s.eases, s.options, s.time + e⟩ _ hw hrev hne
        (alive_runAll_applyEase _ _ _ _ _ ha) hrep
    · have htr : s.options.repeatOpt.truthy = true := by
        rw [hrep]
        rfl
      have hneq : ¬ s.options.repeatOpt ≠ RepeatOpt.bool true := by
        rw [hrep]
        simp
      have hstep := Easing.step_repeat s w e hw hne ha hb hrev htr
      rw [if_neg hneq] at hstep
      set w1 := (if s.time + e - s.options.duration ≠ 0 then
          Easing.runAll (Easing.applyEase s.options (s.time + e - s.options.duration))
            s.eases
            (Easing.runAll Easing.repeatEase s.eases
              (Easing.runAll (Easing.applyEase s.options s.options.duration) s.eases w))
        else Easing.runAll Easing.repeatEase s.eases
          (Easing.runAll (Easing.applyEase s.options s.options.duration) s.eases w))
        with hw1
      have hal : Easing.Alive w1 s.eases := by
        rw [hw1]
        split
        · exact alive_runAll_applyEase _ _ _ _ _
            (alive_runAll_repeatEase _ _ _ (alive_runAll_applyEase _ _ _ _ _ ha))
        · exact alive_runAll_repeatEase _ _ _ (alive_runAll_applyEase _ _ _ _ _ ha)
      simp only [Easing.run, hstep, Bool.false_eq_true, if_false, ← hw1]
      exact ih ⟨s.eases, s.options, s.time + e - s.options.duration⟩ w1 hw hrev hne hal hrep

/-- C8. For any sequence of positive frame increments driving a live,
non-waiting, non-reversing session: with finite `repeat = 3` the session
fires exactly 3 repeat-boundary resets before the call that reports
`finished = true` (and can never have fired more than 3), while with
`repeat = true` no update call ever reports `finished = true` on its
own. -/
theorem repeat_count_termination (L : List ℚ) (s : Easing) (w : World)
    (hpos : ∀ x ∈ L, 0 < x)
    (hw : s.options.wait = 0) (hrev : s.options.reverse = false)
    (hne : s.eases ≠ []) (ha : Easing.Alive w s.eases) :
    (s.options.repeatOpt = RepeatOpt.num 3 →
      (((Easing.run s w L).2.2.1 = true → (Easing.run s w L).2.2.2 = 3) ∧
       ((Easing.run s w L).2.2.1 = false → (Easing.run s w L).2.2.2 ≤ 3))) ∧
    (s.options.repeatOpt = RepeatOpt.bool true → (Easing.run s w L).2.2.1 = false) := by
  constructor
  · intro hrep
    obtain ⟨h1, h2⟩ := run_repeat_count L s w 3 hw hrev hne ha hrep (by norm_num)
    constructor
    · intro hfin
      have := h1 hfin
      exact_mod_cast this
    · intro hfin
      have := h2 hfin
      exact_mod_cast this
  · intro hrep
    exact run_repeat_true L s w hw hrev hne ha hrep

theorem repeatOpt_num_ne_bool (n : ℤ) (b : Bool) :
    (RepeatOpt.num n = RepeatOpt.bool b) = False := by
  simp

theorem Easing.applyEase_x (o : AddOptions) (t : ℚ) (e : EaseEntry) (w : World)
    (h : e.entry = "x") : Easing.applyEase o t e w = Easing.updateOne o t e "x" w := by
  rcases e with ⟨el, en, st, tv, dl, co⟩
  simp only at h
  subst h
  rfl

theorem Easing.applyEase_tint (o : AddOptions) (t : ℚ) (e : EaseEntry) (w : World)
    (h : e.entry = "tint") :
    Easing.applyEase o t e w = Easing.updateTint o t e e.colors w := by
  rcases e with ⟨el, en, st, tv, dl, co⟩
  simp only at h
  subst h
  rfl

theorem Easing.repeatEase_x (e : EaseEntry) (w : World) (h : e.entry = "x") :
    Easing.repeatEase e w = w.setElem e.element ((w.elems e.element).setV "x" e.start) := by
  rcases e with ⟨el, en, st, tv, dl, co⟩
  simp only at h
  subst h
  rfl

theorem Easing.complete_ne_shake (e : EaseEntry) (w : World) (h : e.entry ≠ "shake") :
    Easing.complete e w = w := by
  simp [Easing.complete, h]

set_option maxHeartbeats 2000000 in
/-- C8 witness: the duration-4 session with `repeat = 3` driven by four
boundary-exact increments finishes, and the theorem then pins its repeat
count to exactly 3. -/
theorem repeat_count_termination_witness :
    (Easing.run rep3S wXY [4, 4, 4, 4]).2.2.1 = true ∧
    ((Easing.run rep3S wXY [4, 4, 4, 4]).2.2.1 = true →
      (Easing.run rep3S wXY [4, 4, 4, 4]).2.2.2 = 3) :=
  ⟨by
    norm_num [Easing.run, Easing.update, Easing.updateCore, Easing.updateEases,
      Easing.applyEase_x, Easing.updateOne, Easing.runAll, Easing.repeatEase_x,
      Easing.complete_ne_shake, RepeatOpt.truthy, RepeatOpt.dec, rep3S, fieldE, wXY,
      conXY, linQ, World.setElem, Container.setV, Val.toNum, repeatOpt_num_ne_bool],
   (((repeat_count_termination [4, 4, 4, 4] rep3S wXY
      (by
        intro x hx
        simp only [List.mem_cons, List.not_mem_nil, or_false, or_self] at hx
        rw [hx]
        norm_num)
      rfl rfl (by simp [rep3S])
      (by
        intro x hx
        simp only [rep3S, List.mem_singleton] at hx
        subst hx
        rfl)).1 rfl).1)⟩

/-! ### C7 — reversal round trip: frame and write lemmas -/

theorem readF_setElem_frame (w : World) (j : ℕ) (c : Container) (el : ℕ) (name : String)
    (hkeep : el = j → c.fields name = (w.elems j).fields name) :
    readF (w.setElem j c) el name = readF w el name := by
  by_cases h : el = j
  · rw [readF_setElem, if_pos h, hkeep h, h]
    rfl
  · rw [readF_setElem, if_neg h]

theorem readF_applyEase_frame (o : AddOptions) (t : ℚ) (e : EaseEntry) (w : World)
    (el : ℕ) (name : String) (hnw : (el, name) ∉ writtenFields e) :
    readF (Easing.applyEase o t e w) el name = readF w el name := by
  rcases e with ⟨el', en, st, tv, dl, co⟩
  simp only [Easing.applyEase]
  split
  · have hnw' : ¬ ((el, name) = (el', "scale")) := by
      simpa [show writtenFields ⟨el', "scaleX", st, tv, dl, co⟩ = [(el', "scale")] from rfl]
        using hnw
    simp only [Easing.updateCoord]
    apply readF_setElem_frame
    intro h
    subst h
    exact fields_setCoord_ne _ _ _ _ _ (fun hn => hnw' (by rw [hn]))
  · have hnw' : ¬ ((el, name) = (el', "skew")) := by
      simpa [show writtenFields ⟨el', "skewX", st, tv, dl, co⟩ = [(el', "skew")] from rfl]
        using hnw
    simp only [Easing.updateCoord]
    apply readF_setElem_frame
    intro h
    subst h
    exact fields_setCoord_ne _ _ _ _ _ (fun hn => hnw' (by rw [hn]))
  · have hnw' : ¬ ((el, name) = (el', "scale")) := by
      simpa [show writtenFields ⟨el', "scaleY", st, tv, dl, co⟩ = [(el', "scale")] from rfl]
        using hnw
    simp only [Easing.updateCoord]
    apply readF_setElem_frame
    intro h
    subst h
    exact fields_setCoord_ne _ _ _ _ _ (fun hn => hnw' (by rw [hn]))
  · have hnw' : ¬ ((el, name) = (el', "skew")) := by
      simpa [show writtenFields ⟨el', "skewY", st, tv, dl, co⟩ = [(el', "skew")] from rfl]
        using hnw
    simp only [Easing.updateCoord]
    apply readF_setElem_frame
    intro h
    subst h
    exact fields_setCoord_ne _ _ _ _ _ (fun hn => hnw' (by rw [hn]))
  · have hnw' : ¬ ((el, name) = (el', "tint")) := by
      simpa [show writtenFields ⟨el', "tint", st, tv, dl, co⟩ = [(el', "tint")] from rfl]
        using hnw
    simp only [Easing.updateTint]
    apply readF_setElem_frame
    intro h
    subst h
    rw [Container.fields_setV, if_neg (fun hn => hnw' (by rw [hn]))]
  · have hnw' : ¬ ((el, name) = (el', "tint")) := by
      simpa [show writtenFields ⟨el', "blend", st, tv, dl, co⟩ = [(el', "tint")] from rfl]
        using hnw
    simp only [Easing.updateBlend]
    apply readF_setElem_frame
    intro h
    subst h
    rw [Container.fields_setV, if_neg (fun hn => hnw' (by rw [hn]))]
  · have hnw' : ¬ ((el, name) = (el', "x")) ∧ ¬ ((el, name) = (el', "y")) := by
      constructor <;>
        (intro hc
         apply hnw
         rw [show writtenFields ⟨el', "shake", st, tv, dl, co⟩ =
           [(el', "x"), (el', "y")] from rfl]
         simp [hc])
    simp only [Easing.updateShake, World.draw]
    apply readF_setElem_frame
    intro h
    subst h
    rw [Container.fields_setV, if_neg (fun hn => hnw'.2 (by rw [hn])),
      Container.fields_setV, if_neg (fun hn => hnw'.1 (by rw [hn]))]
  · have hnw' : ¬ ((el, name) = (el', "x")) ∧ ¬ ((el, name) = (el', "y")) := by
      constructor <;>
        (intro hc
         apply hnw
         rw [show writtenFields ⟨el', "position", st, tv, dl, co⟩ =
           [(el', "x"), (el', "y")] from rfl]
         simp [hc])
    simp only [Easing.updatePosition]
    apply readF_setElem_frame
    intro h
    subst h
    rw [Container.fields_setV, if_neg (fun hn => hnw'.2 (by rw [hn])),
      Container.fields_setV, if_neg (fun hn => hnw'.1 (by rw [hn]))]
  · have hnw' : ¬ ((el, name) = (el', "skew")) := by
      simpa [show writtenFields ⟨el', "skew", st, tv, dl, co⟩ = [(el', "skew")] from rfl]
        using hnw
    simp only [Easing.updatePoint]
    apply readF_setElem_frame
    intro h
    subst h
    rw [fields_setCoord_ne _ _ _ _ _ (fun hn => hnw' (by rw [hn])),
      fields_setCoord_ne _ _ _ _ _ (fun hn => hnw' (by rw [hn]))]
  · have hnw' : ¬ ((el, name) = (el', "scale")) := by
      simpa [show writtenFields ⟨el', "scale", st, tv, dl, co⟩ = [(el', "scale")] from rfl]
        using hnw
    simp only [Easing.updatePoint]
    apply readF_setElem_frame
    intro h
    subst h
    rw [fields_setCoord_ne _ _ _ _ _ (fun hn => hnw' (by rw [hn])),
      fields_setCoord_ne _ _ _ _ _ (fun hn => hnw' (by rw [hn]))]
  · have hnw' : ¬ ((el, name) = (el', "rotation")) := by
      simpa [show writtenFields ⟨el', "face", st, tv, dl, co⟩ = [(el', "rotation")] from rfl]
        using hnw
    simp only [Easing.updateOne]
    apply readF_setElem_frame
    intro h
    subst h
    rw [Container.fields_setV, if_neg (fun hn => hnw' (by rw [hn]))]
  · rename_i h1 h2 h3 h4 h5 h6 h7 h8 h9 h10 h11
    have hnw' : ¬ ((el, name) = (el', en)) := by
      intro hc
      apply hnw
      have : writtenFields ⟨el', en, st, tv, dl, co⟩ = [(el', en)] := by
        simp only [writtenFields]
      rw [this]
      simp [hc]
    simp only [Easing.updateOne]
    apply readF_setElem_frame
    intro h
    subst h
    rw [Container.fields_setV, if_neg (fun hn => hnw' (by rw [hn]))]

theorem reverseEase_entry (e : EaseEntry) : (Easing.reverseEase e).entry = e.entry := by
  simp only [Easing.reverseEase]
  split <;> rfl

theorem reverseEase_element (e : EaseEntry) : (Easing.reverseEase e).element = e.element := by
  simp only [Easing.reverseEase]
  split <;> rfl

theorem writtenFields_reverseEase (e : EaseEntry) :
    writtenFields (Easing.reverseEase e) = writtenFields e := by
  rcases e with ⟨el, en, st, tv, dl, co⟩
  simp only [Easing.reverseEase]
  split <;> rfl

theorem valueKind_reverseEase (e : EaseEntry) (h : valueKind e.entry) :
    valueKind (Easing.reverseEase e).entry := by
  rw [reverseEase_entry]
  exact h

theorem wfEntry_reverseEase (e : EaseEntry) (h : wfEntry e) :
    wfEntry (Easing.reverseEase e) := by
  rcases e with ⟨el, en, st, tv, dl, co⟩
  by_cases hp : en = "position"
  · subst hp
    simp only [wfEntry, if_pos rfl] at h
    obtain ⟨ps, pe, pd, h1, h2, h3, h4, h5⟩ := h
    subst h1
    subst h2
    subst h3
    simp only [Easing.reverseEase, if_pos rfl, wfEntry, if_true]
    refine ⟨pe, ps, ⟨-pd.x, -pd.y⟩, rfl, rfl, rfl, ?_, ?_⟩
    · show -pd.x = ps.x - pe.x
      rw [h4]
      ring
    · show -pd.y = ps.y - pe.y
      rw [h5]
      ring
  · simp only [wfEntry, if_neg hp] at h
    obtain ⟨a, b, h1, h2, h3⟩ := h
    subst h1
    subst h2
    subst h3
    simp only [Easing.reverseEase, if_neg hp, wfEntry, if_neg hp]
    refine ⟨b, a, rfl, rfl, ?_⟩
    show Val.num (-(b - a)) = Val.num (a - b)
    exact congrArg Val.num (by ring)

theorem toV_reverseEase (e : EaseEntry) (h : wfEntry e) :
    (Easing.reverseEase e).toV = e.start := by
  rcases e with ⟨el, en, st, tv, dl, co⟩
  by_cases hp : en = "position"
  · subst hp
    simp only [wfEntry, if_pos rfl] at h
    obtain ⟨ps, pe, pd, h1, h2, h3, h4, h5⟩ := h
    subst h1
    simp only [Easing.reverseEase, if_pos rfl, if_true]
    rfl
  · simp only [Easing.reverseEase, if_neg hp]

theorem holdsVal_reverseEase (w : World) (e : EaseEntry) (v : Val) :
    holdsVal w (Easing.reverseEase e) v ↔ holdsVal w e v := by
  rcases e with ⟨el, en, st, tv, dl, co⟩
  simp only [Easing.reverseEase]
  split <;> exact Iff.rfl

theorem holdsVal_mono (w w' : World) (e : EaseEntry) (v : Val) (hv : valueKind e.entry)
    (hr : ∀ f ∈ writtenFields e, readF w' f.1 f.2 = readF w f.1 f.2) :
    holdsVal w e v → holdsVal w' e v := by
  rcases e with ⟨el, en, st, tv, dl, co⟩
  obtain ⟨hv1, hv2, hv3⟩ := hv
  intro h
  unfold holdsVal at h ⊢
  dsimp only at h ⊢
  split
  · obtain ⟨p, h1, h2⟩ := h
    refine ⟨p, ?_, h2⟩
    rw [hr (el, "scale") (by simp [writtenFields])]
    exact h1
  · obtain ⟨p, h1, h2⟩ := h
    refine ⟨p, ?_, h2⟩
    rw [hr (el, "scale") (by simp [writtenFields])]
    exact h1
  · obtain ⟨p, h1, h2⟩ := h
    refine ⟨p, ?_, h2⟩
    rw [hr (el, "skew") (by simp [writtenFields])]
    exact h1
  · obtain ⟨p, h1, h2⟩ := h
    refine ⟨p, ?_, h2⟩
    rw [hr (el, "skew") (by simp [writtenFields])]
    exact h1
  · obtain ⟨p, h1, h2⟩ := h
    refine ⟨p, ?_, h2⟩
    rw [hr (el, "skew") (by simp [writtenFields])]
    exact h1
  · obtain ⟨p, h1, h2⟩ := h
    refine ⟨p, ?_, h2⟩
    rw [hr (el, "scale") (by simp [writtenFields])]
    exact h1
  · obtain ⟨h1, h2⟩ := h
    constructor
    · rw [hr (el, "x") (by simp [writtenFields])]
      exact h1
    · rw [hr (el, "y") (by simp [writtenFields])]
      exact h2
  · rw [hr (el, "rotation") (by simp [writtenFields])]
    exact h
  · rename_i hn1 hn2 hn3 hn4 hn5 hn6 hn7 hn8
    have hwf : writtenFields ⟨el, en, st, tv, dl, co⟩ = [(el, en)] := by
      simp only [writtenFields, hn1, hn2, hn3, hn4, hn5, hn6, hn7, hn8, hv1, hv2, hv3]
    rw [hr (el, en) (by rw [hwf]; simp)]
    split at h
    all_goals first
      | exact absurd rfl hn1
      | exact absurd rfl hn2
      | exact absurd rfl hn3
      | exact absurd rfl hn4
      | exact absurd rfl hn5
      | exact absurd rfl hn6
      | exact absurd rfl hn7
      | exact absurd rfl hn8
      | exact h

theorem applyEase_writes (o : AddOptions) (e : EaseEntry) (w : World)
    (HD : ∀ a d, o.ease o.duration a d o.duration = a + d)
    (hv : valueKind e.entry) (hwf : wfEntry e) (hpt : PtWorld w) :
    holdsVal (Easing.applyEase o o.duration e w) e e.toV := by
  rcases e with ⟨el, en, st, tv, dl, co⟩
  obtain ⟨hv1, hv2, hv3⟩ := hv
  obtain ⟨⟨p1, hp1⟩, ⟨p2, hp2⟩⟩ := hpt el
  have hp1' : (w.elems el).fields "scale" = .pt p1 := hp1
  have hp2' : (w.elems el).fields "skew" = .pt p2 := hp2
  unfold wfEntry at hwf
  dsimp only at hwf
  simp only [Easing.applyEase]
  split
  · rw [if_neg (by decide)] at hwf
    obtain ⟨a, b, hst, htv, hdl⟩ := hwf
    subst hst
    subst htv
    subst hdl
    simp only [Easing.updateCoord]
    refine ⟨⟨o.ease o.duration (Val.num a).toNum (Val.num (b - a)).toNum o.duration, p1.y⟩,
      ?_, ?_⟩
    · rw [readF_setElem, if_pos rfl, fields_setCoord_pt _ _ _ _ p1 hp1']
      rfl
    · rw [HD]
      show a + (b - a) = b
      ring
  · rw [if_neg (by decide)] at hwf
    obtain ⟨a, b, hst, htv, hdl⟩ := hwf
    subst hst
    subst htv
    subst hdl
    simp only [Easing.updateCoord]
    refine ⟨⟨o.ease o.duration (Val.num a).toNum (Val.num (b - a)).toNum o.duration, p2.y⟩,
      ?_, ?_⟩
    · rw [readF_setElem, if_pos rfl, fields_setCoord_pt _ _ _ _ p2 hp2']
      rfl
    · rw [HD]
      show a + (b - a) = b
      ring
  · rw [if_neg (by decide)] at hwf
    obtain ⟨a, b, hst, htv, hdl⟩ := hwf
    subst hst
    subst htv
    subst hdl
    simp only [Easing.updateCoord]
    refine ⟨⟨p1.x, o.ease o.duration (Val.num a).toNum (Val.num (b - a)).toNum o.duration⟩,
      ?_, ?_⟩
    · rw [readF_setElem, if_pos rfl, fields_setCoord_pt _ _ _ _ p1 hp1']
      rfl
    · rw [HD]
      show a + (b - a) = b
      ring
  · rw [if_neg (by decide)] at hwf
    obtain ⟨a, b, hst, htv, hdl⟩ := hwf
    subst hst
    subst htv
    subst hdl
    simp only [Easing.updateCoord]
    refine ⟨⟨p2.x, o.ease o.duration (Val.num a).toNum (Val.num (b - a)).toNum o.duration⟩,
      ?_, ?_⟩
    · rw [readF_setElem, if_pos rfl, fields_setCoord_pt _ _ _ _ p2 hp2']
      rfl
    · rw [HD]
      show a + (b - a) = b
      ring
  · exact absurd rfl hv1
  · exact absurd rfl hv2
  · exact absurd rfl hv3
  · rw [if_pos rfl] at hwf
    obtain ⟨ps, pe, pd, hst, htv, hdl, h4, h5⟩ := hwf
    subst hst
    subst htv
    subst hdl
    simp only [Easing.updatePosition]
    constructor
    · rw [readF_setElem, if_pos rfl, Container.fields_setV, if_neg (by decide),
        Container.fields_setV, if_pos rfl, HD]
      exact congrArg Val.num (by
        show ps.x + pd.x = pe.x
        rw [h4]
        ring)
    · rw [readF_setElem, if_pos rfl, Container.fields_setV, if_pos rfl, HD]
      exact congrArg Val.num (by
        show ps.y + pd.y = pe.y
        rw [h5]
        ring)
  · rw [if_neg (by decide)] at hwf
    obtain ⟨a, b, hst, htv, hdl⟩ := hwf
    subst hst
    subst htv
    subst hdl
    simp only [Easing.updatePoint]
    refine ⟨⟨o.ease o.duration (Val.num a).toNum (Val.num (b - a)).toNum o.duration,
      o.ease o.duration (Val.num a).toNum (Val.num (b - a)).toNum o.duration⟩, ?_, ?_, ?_⟩
    · rw [readF_setElem, if_pos rfl,
        fields_setCoord_pt _ _ _ _ _ (fields_setCoord_pt _ _ _ _ p2 hp2')]
      rfl
    · rw [HD]
      show a + (b - a) = b
      ring
    · rw [HD]
      show a + (b - a) = b
      ring
  · rw [if_neg (by decide)] at hwf
    obtain ⟨a, b, hst, htv, hdl⟩ := hwf
    subst hst
    subst htv
    subst hdl
    simp only [Easing.updatePoint]
    refine ⟨⟨o.ease o.duration (Val.num a).toNum (Val.num (b - a)).toNum o.duration,
      o.ease o.duration (Val.num a).toNum (Val.num (b - a)).toNum o.duration⟩, ?_, ?_, ?_⟩
    · rw [readF_setElem, if_pos rfl,
        fields_setCoord_pt _ _ _ _ _ (fields_setCoord_pt _ _ _ _ p1 hp1')]
      rfl
    · rw [HD]
      show a + (b - a) = b
      ring
    · rw [HD]
      show a + (b - a) = b
      ring
  · rw [if_neg (by decide)] at hwf
    obtain ⟨a, b, hst, htv, hdl⟩ := hwf
    subst hst
    subst htv
    subst hdl
    simp only [Easing.updateOne]
    show readF _ el "rotation" = Val.num (Val.num b).toNum
    rw [readF_setElem, if_pos rfl, Container.fields_setV, if_pos rfl, HD]
    exact congrArg Val.num (by
      show a + (b - a) = b
      ring)
  · rename_i hn1 hn2 hn3 hn4 hn5 hn6 hn7 hn8 hn9 hn10 hn11
    rw [if_neg hn8] at hwf
    obtain ⟨a, b, hst, htv, hdl⟩ := hwf
    subst hst
    subst htv
    subst hdl
    simp only [Easing.updateOne]
    unfold holdsVal
    dsimp only
    split
    all_goals first
      | exact absurd rfl hn1
      | exact absurd rfl hn2
      | exact absurd rfl hn3
      | exact absurd rfl hn4
      | exact absurd rfl hn5
      | exact absurd rfl hn6
      | exact absurd rfl hn7
      | exact absurd rfl hn8
      | exact absurd rfl hn9
      | exact absurd rfl hn10
      | exact absurd rfl hn11
      | (rw [readF_setElem, if_pos rfl, Container.fields_setV, if_pos rfl, HD]
         exact congrArg Val.num (by
           show a + (b - a) = b
           ring))

theorem readF_runAll_frame (o : AddOptions) (t : ℚ) (es : List EaseEntry) (w : World)
    (f : ℕ × String) (hnw : ∀ e ∈ es, f ∉ writtenFields e) :
    readF (Easing.runAll (Easing.applyEase o t) es w) f.1 f.2 = readF w f.1 f.2 := by
  induction es generalizing w with
  | nil => rfl
  | cons e rest ih =>
    rw [show Easing.runAll (Easing.applyEase o t) (e :: rest) w =
        Easing.runAll (Easing.applyEase o t) rest (Easing.applyEase o t e w) from rfl,
      ih _ (fun e' he' => hnw e' (List.mem_cons_of_mem _ he')),
      readF_applyEase_frame o t e w f.1 f.2 (hnw e (List.mem_cons_self _ _))]

theorem runAll_writes (o : AddOptions) (es : List EaseEntry) (w : World)
    (HD : ∀ a d, o.ease o.duration a d o.duration = a + d)
    (hv : ∀ e ∈ es, valueKind e.entry) (hwf : ∀ e ∈ es, wfEntry e)
    (hdisj : es.Pairwise (fun a b => ∀ f ∈ writtenFields a, f ∉ writtenFields b))
    (hpt : PtWorld w) :
    ∀ e ∈ es, holdsVal (Easing.runAll (Easing.applyEase o o.duration) es w) e e.toV := by
  induction es generalizing w with
  | nil =>
    intro e he
    cases he
  | cons a rest ih =>
    intro e he
    rw [show Easing.runAll (Easing.applyEase o o.duration) (a :: rest) w =
        Easing.runAll (Easing.applyEase o o.duration) rest
          (Easing.applyEase o o.duration a w) from rfl]
    rcases List.mem_cons.1 he with rfl | hmem
    · refine holdsVal_mono (Easing.applyEase o o.duration e w) _ _ _
        (hv e (List.mem_cons_self _ _)) ?_ ?_
      · intro f hf
        exact readF_runAll_frame o o.duration rest _ f
          (fun b hb => (List.pairwise_cons.1 hdisj).1 b hb f hf)
      · exact applyEase_writes o e w HD (hv e (List.mem_cons_self _ _))
          (hwf e (List.mem_cons_self _ _)) hpt
    · exact ih _ (fun e' he' => hv e' (List.mem_cons_of_mem _ he'))
        (fun e' he' => hwf e' (List.mem_cons_of_mem _ he'))
        (List.pairwise_cons.1 hdisj).2
        (PtWorld_applyEase o o.duration a w hpt) e hmem

theorem runAll_complete_id (es : List EaseEntry) (w : World)
    (hv : ∀ e ∈ es, valueKind e.entry) :
    Easing.runAll Easing.complete es w = w := by
  induction es generalizing w with
  | nil => rfl
  | cons a rest ih =>
    show Easing.runAll Easing.complete rest (Easing.complete a w) = w
    rw [Easing.complete_ne_shake a w (hv a (List.mem_cons_self _ _)).2.2,
      ih _ (fun e he => hv e (List.mem_cons_of_mem _ he))]

theorem alive_map_reverseEase (w : World) (es : List EaseEntry)
    (ha : Easing.Alive w es) : Easing.Alive w (es.map Easing.reverseEase) := by
  intro e he
  obtain ⟨a, hmem, rfl⟩ := List.mem_map.1 he
  rw [reverseEase_element]
  exact ha a hmem

theorem run_phase_reverse (L : List ℚ) :
    ∀ (s : Easing) (w : World),
      s.options.wait = 0 → s.eases ≠ [] →
      Easing.Alive w s.eases → PtWorld w →
      s.options.reverse = true → s.options.repeatOpt.truthy = false →
      hitsExactly s.time s.options.duration L →
      (Easing.run s w L).1 = ⟨s.eases.map Easing.reverseEase,
          { s.options with reverse := false }, 0⟩ ∧
      (Easing.run s w L).2.2.1 = false ∧
      PtWorld (Easing.run s w L).2.1 ∧
      Easing.Alive (Easing.run s w L).2.1 s.eases := by
  induction L with
  | nil =>
    intro s w _ _ _ _ _ _ hL
    exact absurd hL id
  | cons e rest ih =>
    intro s w hw hne ha hpt hrev htr hL
    rcases rest with _ | ⟨e2, rest'⟩
    · have hL1 : s.time + e = s.options.duration := hL
      have hb : s.options.duration ≤ s.time + e := le_of_eq hL1.symm
      have hstep := Easing.step_reverse s w e hw hne ha hb hrev
      have hz : s.time + e - s.options.duration = 0 := by
        rw [hL1]
        ring
      rw [hz] at hstep
      rw [htr, if_neg Bool.false_ne_true,
        if_neg (fun hc : (0 : ℚ) ≠ 0 => hc rfl)] at hstep
      refine ⟨?_, ?_, ?_, ?_⟩
      · simp only [Easing.run, hstep, Bool.false_eq_true, if_false]
      · simp only [Easing.run, hstep, Bool.false_eq_true, if_false]
      · simp only [Easing.run, hstep, Bool.false_eq_true, if_false]
        exact PtWorld_runAll_applyEase _ _ _ _ hpt
      · simp only [Easing.run, hstep, Bool.false_eq_true, if_false]
        exact alive_runAll_applyEase _ _ _ _ _ ha
    · have hL' : s.time + e < s.options.duration ∧
          hitsExactly (s.time + e) s.options.duration (e2 :: rest') := hL
      have hstep := Easing.step_advance s w e hw hne ha hL'.1
      have ihh := ih ⟨s.eases, s.options, s.time + e⟩
        (Easing.runAll (Easing.applyEase s.options (s.time + e)) s.eases w)
        hw hne (alive_runAll_applyEase _ _ _ _ _ ha)
        (PtWorld_runAll_applyEase _ _ _ _ hpt) hrev htr hL'.2
      simp only [Easing.run, hstep, Bool.false_eq_true, if_false]
      exact ihh

theorem run_phase_complete (L : List ℚ) :
    ∀ (s : Easing) (w : World),
      s.options.wait = 0 → s.eases ≠ [] →
      Easing.Alive w s.eases → PtWorld w →
      s.options.reverse = false → s.options.repeatOpt.truthy = false →
      (∀ a d, s.options.ease s.options.duration a d s.options.duration = a + d) →
      (∀ e ∈ s.eases, valueKind e.entry) →
      (∀ e ∈ s.eases, wfEntry e) →
      s.eases.Pairwise (fun a b => ∀ f ∈ writtenFields a, f ∉ writtenFields b) →
      hitsExactly s.time s.options.duration L →
      (Easing.run s w L).2.2.1 = true ∧
      ∀ e ∈ s.eases, holdsVal (Easing.run s w L).2.1 e e.toV := by
  induction L with
  | nil =>
    intro s w _ _ _ _ _ _ _ _ _ _ hL
    exact absurd hL id
  | cons e rest ih =>
    intro s w hw hne ha hpt hrev htr HD hv hwf hdisj hL
    rcases rest with _ | ⟨e2, rest'⟩
    · have hL1 : s.time + e = s.options.duration := hL
      have hb : s.options.duration ≤ s.time + e := le_of_eq hL1.symm
      have hstep := Easing.step_complete s w e hw hne ha hb hrev htr
      rw [runAll_complete_id s.eases _ hv] at hstep
      constructor
      · simp only [Easing.run, hstep, if_true]
      · intro e' he'
        simp only [Easing.run, hstep, if_true]
        exact runAll_writes s.options s.eases w HD hv hwf hdisj hpt e' he'
    · have hL' : s.time + e < s.options.duration ∧
          hitsExactly (s.time + e) s.options.duration (e2 :: rest') := hL
      have hstep := Easing.step_advance s w e hw hne ha hL'.1
      have ihh := ih ⟨s.eases, s.options, s.time + e⟩
        (Easing.runAll (Easing.applyEase s.options (s.time + e)) s.eases w)
        hw hne (alive_runAll_applyEase _ _ _ _ _ ha)
        (PtWorld_runAll_applyEase _ _ _ _ hpt) hrev htr HD hv hwf hdisj hL'.2
      simp only [Easing.run, hstep, Bool.false_eq_true, if_false]
      exact ihh

theorem run_append_of_unfinished (L2 : List ℚ) :
    ∀ (L1 : List ℚ) (s : Easing) (w : World),
      (Easing.run s w L1).2.2.1 = false →
      ((Easing.run s w (L1 ++ L2)).2.1 =
          (Easing.run (Easing.run s w L1).1 (Easing.run s w L1).2.1 L2).2.1 ∧
       (Easing.run s w (L1 ++ L2)).2.2.1 =
          (Easing.run (Easing.run s w L1).1 (Easing.run s w L1).2.1 L2).2.2.1) := by
  intro L1
  induction L1 with
  | nil =>
    intro s w _
    exact ⟨rfl, rfl⟩
  | cons e rest ih =>
    intro s w h
    by_cases hfin : (Easing.update s w e).2.2.1 = true
    · exfalso
      simp only [Easing.run, hfin, if_true] at h
      exact Bool.noConfusion h
    · have hfin' : (Easing.update s w e).2.2.1 = false := by
        cases hh : (Easing.update s w e).2.2.1
        · rfl
        · exact absurd hh hfin
      have h' : (Easing.run (Easing.update s w e).1 (Easing.update s w e).2.1 rest).2.2.1
          = false := by
        simpa only [Easing.run, hfin', Bool.false_eq_true, if_false] using h
      have hrec := ih (Easing.update s w e).1 (Easing.update s w e).2.1 h'
      constructor
      · simp only [List.cons_append, Easing.run, hfin', Bool.false_eq_true, if_false]
        exact hrec.1
      · simp only [List.cons_append, Easing.run, hfin', Bool.false_eq_true, if_false]
        exact hrec.2

/-! ### C7 — the reversal round trip -/

/-- C7 (amended).  Reversal round trip for the value-interpolating
binding kinds: for a session with `reverse = true` and falsy `repeat`,
no wait pending, whose curve satisfies the end convention
`f(D, s, d, D) = s + d`, whose bindings are all of value kind (not
`tint`, `blend` or `shake`), well-formed as `addParam` built them and
targeting pairwise-disjoint fields, on live elements of a world whose
`scale`/`skew` slots hold points: after a forward phase and a reverse
phase that each land on the boundary exactly (leftover zero), the
session reports finished and every binding's targeted property holds its
original `start` value again.  (The color kinds break the round trip —
see the counterexample — hence the value-kind restriction.) -/
theorem reverse_round_trip (s : Easing) (w : World) (L1 L2 : List ℚ)
    (hw : s.options.wait = 0) (hne : s.eases ≠ [])
    (ha : Easing.Alive w s.eases) (hpt : PtWorld w)
    (hrev : s.options.reverse = true) (htr : s.options.repeatOpt.truthy = false)
    (HD : ∀ a d, s.options.ease s.options.duration a d s.options.duration = a + d)
    (hv : ∀ e ∈ s.eases, valueKind e.entry)
    (hwf : ∀ e ∈ s.eases, wfEntry e)
    (hdisj : s.eases.Pairwise (fun a b => ∀ f ∈ writtenFields a, f ∉ writtenFields b))
    (hL1 : hitsExactly s.time s.options.duration L1)
    (hL2 : hitsExactly 0 s.options.duration L2) :
    (Easing.run s w (L1 ++ L2)).2.2.1 = true ∧
    ∀ e ∈ s.eases, holdsVal (Easing.run s w (L1 ++ L2)).2.1 e e.start := by
  obtain ⟨hs1, hf1, hpt1, hal1⟩ := run_phase_reverse L1 s w hw hne ha hpt hrev htr hL1
  obtain ⟨hw2, hf2⟩ := run_append_of_unfinished L2 L1 s w hf1
  have hes1 : (Easing.run s w L1).1.eases = s.eases.map Easing.reverseEase := by
    rw [hs1]
  have hop1 : (Easing.run s w L1).1.options = { s.options with reverse := false } := by
    rw [hs1]
  have hti1 : (Easing.run s w L1).1.time = 0 := by
    rw [hs1]
  have hphase2 := run_phase_complete L2 (Easing.run s w L1).1 (Easing.run s w L1).2.1
    (by rw [hop1]; exact hw)
    (by
      rw [hes1]
      intro hc
      exact hne (by simpa using hc))
    (by rw [hes1]; exact alive_map_reverseEase _ _ hal1)
    hpt1
    (by rw [hop1])
    (by rw [hop1]; exact htr)
    (by rw [hop1]; exact HD)
    (by
      rw [hes1]
      intro e' he'
      obtain ⟨a, hmem, rfl⟩ := List.mem_map.1 he'
      exact valueKind_reverseEase a (hv a hmem))
    (by
      rw [hes1]
      intro e' he'
      obtain ⟨a, hmem, rfl⟩ := List.mem_map.1 he'
      exact wfEntry_reverseEase a (hwf a hmem))
    (by
      rw [hes1]
      exact List.pairwise_map.2 (hdisj.imp (by
        intro a b hab f hf
        rw [writtenFields_reverseEase] at hf ⊢
        exact hab f hf)))
    (by rw [hti1, hop1]; exact hL2)
  obtain ⟨hfin2, hhold2⟩ := hphase2
  constructor
  · rw [hf2]
    exact hfin2
  · intro e he
    have hmem' : Easing.reverseEase e ∈ (Easing.run s w L1).1.eases := by
      rw [hes1]
      exact List.mem_map_of_mem _ he
    have hh := hhold2 _ hmem'
    rw [toV_reverseEase e (hwf e he), holdsVal_reverseEase] at hh
    rw [hw2]
    exact hh

/-- C7 witness: the reversing duration-4 session over the scalar `x`
binding (`start = 5`, `to = 9`), driven to the forward boundary with
`[2, 2]` and the reverse boundary with `[4]`, finishes with `x` back at
its start value 5. -/
theorem reverse_round_trip_witness :
    (Easing.run rtS wFull ([2, 2] ++ [4])).2.2.1 = true ∧
    holdsVal (Easing.run rtS wFull ([2, 2] ++ [4])).2.1 fieldE fieldE.start := by
  have h := reverse_round_trip rtS wFull [2, 2] [4]
    rfl
    (by simp [rtS])
    (by
      intro e he
      simp only [rtS, List.mem_singleton] at he
      subst he
      rfl)
    (by
      intro el
      exact ⟨⟨⟨1, 1⟩, rfl⟩, ⟨⟨0, 0⟩, rfl⟩⟩)
    rfl
    rfl
    (by
      intro a d
      show a + d * 4 / 4 = a + d
      ring)
    (by
      intro e he
      simp only [rtS, List.mem_singleton] at he
      subst he
      exact ⟨by decide, by decide, by decide⟩)
    (by
      intro e he
      simp only [rtS, List.mem_singleton] at he
      subst he
      exact ⟨5, 9, rfl, rfl, congrArg Val.num (by norm_num)⟩)
    (by simp [rtS])
    (by
      show hitsExactly 0 4 [2, 2]
      norm_num [hitsExactly])
    (by
      show hitsExactly 0 4 [4]
      norm_num [hitsExactly])
  exact ⟨h.1, h.2 fieldE (by simp [rtS])⟩

set_option maxHeartbeats 1000000 in
/-- C7 counterexample: the claim as stated fails for a `tint` binding.
The reversing duration-2 session over the color array `[5, 9]` (element
0's tint starts at 7) satisfies every hypothesis of the original claim —
`reverse = true`, falsy `repeat`, linear curve with `f(0) = s` and
`f(D) = s + d`, boundary-exact phases — yet after the round trip the
written `tint` property holds color 5, not its original value 7. -/
theorem tint_round_trip_fails :
    (Easing.run tintS wTint [2, 2]).2.2.1 = true ∧
    readF wTint 0 "tint" = Val.num 7 ∧
    readF (Easing.run tintS wTint [2, 2]).2.1 0 "tint" = Val.num 5 := by
  have hsp : ("tint" = "position") = False := eq_false (by decide)
  have hss : ("tint" = "shake") = False := eq_false (by decide)
  refine ⟨?_, rfl, ?_⟩ <;>
    norm_num [Easing.run, Easing.update, Easing.updateCore, Easing.updateEases,
      Easing.applyEase_tint, Easing.updateTint, Easing.tintIndex, Easing.runAll,
      Easing.complete_ne_shake, Easing.reverseEase, RepeatOpt.truthy, tintS, tintE,
      wTint, conTint, linQ, World.setElem, Container.setV, Val.toNum, readF,
      List.getD, hsp, hss]

end PixiEase
